import Mathlib

/-!
Verification development for the oh-packager package manager.

The Go sources are shallowly embedded below: strings are modelled as
`String` / `List Char`, the `blang/semver/v4` library is modelled by
`parseTolerant` / `semverCompare`, maps are modelled as association
lists in insertion order, and filesystem state is passed explicitly.
-/

namespace OhPackager

/-! ## Basic character/string helpers (Go `strings` package behaviour) -/

/-- Unicode white space for ASCII-range and Latin-1 points, as in Go
`unicode.IsSpace` (used by `strings.TrimSpace`). -/
def isGoSpace (c : Char) : Bool :=
  c == ' ' || c == '\t' || c == '\n' || c == '\x0b' || c == '\x0c' ||
  c == '\r' || c == '\u0085' || c == ' '

/-- RE2 character class `\s` = `[\t\n\f\r ]`. -/
def isRegexSpace (c : Char) : Bool :=
  c == '\t' || c == '\n' || c == '\x0c' || c == '\r' || c == ' '

/-- Go `strings.TrimSpace` on a character list. -/
def trimSpaceL (l : List Char) : List Char :=
  ((l.dropWhile isGoSpace).reverse.dropWhile isGoSpace).reverse

/-- Split a list at the first occurrence of `sep`, if any. -/
def breakAt (sep : Char) : List Char → Option (List Char × List Char)
  | [] => none
  | c :: t =>
    if c == sep then some ([], t)
    else match breakAt sep t with
      | none => none
      | some (a, b) => some (c :: a, b)

/-- Go `strings.SplitN (sep, n)` restricted to single-character separators:
`splitBounded sep k l` performs at most `k` splits (so `SplitN _ _ n`
is `splitBounded sep (n-1)`). -/
def splitBounded (sep : Char) : Nat → List Char → List (List Char)
  | 0, l => [l]
  | k + 1, l =>
    match breakAt sep l with
    | none => [l]
    | some (a, b) => a :: splitBounded sep k b

/-- Accumulator loop for Go `strings.Split`. -/
def splitAllGo (sep : Char) : List Char → List Char → List (List Char)
  | cur, [] => [cur.reverse]
  | cur, c :: t =>
    if c == sep then cur.reverse :: splitAllGo sep [] t
    else splitAllGo sep (c :: cur) t

/-- Go `strings.Split` (unlimited) on a single-character separator. -/
def splitAll (sep : Char) (l : List Char) : List (List Char) :=
  splitAllGo sep [] l

/-- Go `strings.Join` with a single-character separator. -/
def joinSep (sep : Char) : List (List Char) → List Char
  | [] => []
  | [x] => x
  | x :: y :: t => x ++ sep :: joinSep sep (y :: t)

/-- Numeric value of a digit string (assuming all digits). -/
def digitsToNat (l : List Char) : Nat :=
  l.foldl (fun n c => n * 10 + (c.toNat - '0'.toNat)) 0

/-- Right-trim of Go `strings.TrimSpace`. -/
def rdropGo (l : List Char) : List Char :=
  (l.reverse.dropWhile isGoSpace).reverse

/-- The quote characters: Go `strings.Trim(_, `"'`)` cutset. -/
def isQuoteChar (c : Char) : Bool :=
  c == '"' || c == '\''

/-- Go `strings.Trim` with the quote cutset. -/
def trimQuotes (l : List Char) : List Char :=
  ((l.dropWhile isQuoteChar).reverse.dropWhile isQuoteChar).reverse

/-! ## Semantic versions: model of `blang/semver/v4` -/

/-- A pre-release identifier (`semver.PRVersion`). -/
structure PRVersion where
  isNum : Bool
  num : Nat
  str : List Char
deriving DecidableEq, Repr

/-- A parsed semantic version (`semver.Version`). -/
structure SemVer where
  major : Nat
  minor : Nat
  patch : Nat
  pre : List PRVersion
  build : List (List Char)
deriving DecidableEq, Repr

/-- Go's `alphanum` class in semver: ASCII letters, digits and `-`. -/
def isSemverAlnum (c : Char) : Bool :=
  c.isAlpha || c.isDigit || c == '-'

/-- `hasLeadingZeroes` from blang/semver. -/
def hasLeadingZeroes (l : List Char) : Bool :=
  decide (1 < l.length) && l.head? == some '0'

/-- Parse a numeric component as `strconv.ParseUint(_, 10, 64)` preceded by
the `containsOnly numbers` and `hasLeadingZeroes` checks. -/
def parseNumPart (l : List Char) : Option Nat :=
  if l.isEmpty then none
  else if !(l.all Char.isDigit) then none
  else if hasLeadingZeroes l then none
  else
    let n := digitsToNat l
    if n < 2 ^ 64 then some n else none

/-- `semver.NewPRVersion`. -/
def parsePRVersion (l : List Char) : Option PRVersion :=
  if l.isEmpty then none
  else if l.all Char.isDigit then
    if hasLeadingZeroes l then none
    else
      let n := digitsToNat l
      if n < 2 ^ 64 then some ⟨true, n, []⟩ else none
  else if l.all isSemverAlnum then some ⟨false, 0, l⟩
  else none

/-- `semver.Parse` on a character list. -/
def semverParseL (l : List Char) : Option SemVer :=
  if l.isEmpty then none
  else
    match splitBounded '.' 2 l with
    | [p0, p1, p2] =>
      match parseNumPart p0, parseNumPart p1 with
      | some major, some minor =>
        let (patch1, buildParts) :=
          match breakAt '+' p2 with
          | none => (p2, ([] : List (List Char)))
          | some (a, b) => (a, splitAll '.' b)
        let (patch2, preParts) :=
          match breakAt '-' patch1 with
          | none => (patch1, ([] : List (List Char)))
          | some (a, b) => (a, splitAll '.' b)
        match parseNumPart patch2 with
        | none => none
        | some patch =>
          match preParts.mapM parsePRVersion with
          | none => none
          | some pres =>
            if buildParts.all (fun b => !b.isEmpty && b.all isSemverAlnum) then
              some ⟨major, minor, patch, pres, buildParts⟩
            else none
      | _, _ => none
    | _ => none

/-- The per-component leading-zero normalisation of `semver.ParseTolerant`. -/
def tolerantFixPart (p : List Char) : List Char :=
  if 1 < p.length then
    let q := p.dropWhile (· == '0')
    match q with
    | [] => ['0']
    | c :: _ => if c.isDigit then q else '0' :: q
  else p

/-- `semver.ParseTolerant` on a character list. -/
def parseTolerantL (l : List Char) : Option SemVer :=
  let s := trimSpaceL l
  let s := if s.head? == some 'v' then s.tail else s
  let parts := (splitBounded '.' 2 s).map tolerantFixPart
  if parts.length < 3 then
    match parts.getLast? with
    | none => none
    | some lastp =>
      if lastp.any (fun c => c == '+' || c == '-') then none
      else semverParseL (joinSep '.' (parts ++ List.replicate (3 - parts.length) ['0']))
  else semverParseL (joinSep '.' parts)

/-- `semver.ParseTolerant` on a string. -/
def ParseTolerant (s : String) : Option SemVer :=
  parseTolerantL s.data

/-- Three-way comparison of naturals as a Go-style `int` in `{-1, 0, 1}`. -/
def natCmp (x y : Nat) : Int :=
  if x < y then -1 else if y < x then 1 else 0

/-- Go byte-wise string comparison (`<`, `>`) on ASCII character lists. -/
def strCmpGo : List Char → List Char → Int
  | [], [] => 0
  | [], _ :: _ => -1
  | _ :: _, [] => 1
  | a :: as, b :: bs =>
    if a.toNat < b.toNat then -1
    else if b.toNat < a.toNat then 1
    else strCmpGo as bs

/-- `semver.PRVersion.Compare`. -/
def prCompare (a b : PRVersion) : Int :=
  if a.isNum && !b.isNum then -1
  else if !a.isNum && b.isNum then 1
  else if a.isNum && b.isNum then natCmp a.num b.num
  else strCmpGo a.str b.str

/-- The pre-release list loop inside `semver.Version.Compare`. -/
def preListCmp : List PRVersion → List PRVersion → Int
  | [], [] => 0
  | [], _ :: _ => -1
  | _ :: _, [] => 1
  | a :: as, b :: bs =>
    let c := prCompare a b
    if c = 0 then preListCmp as bs else c

/-- `semver.Version.Compare`. -/
def semverCompare (v o : SemVer) : Int :=
  if v.major ≠ o.major then natCmp v.major o.major
  else if v.minor ≠ o.minor then natCmp v.minor o.minor
  else if v.patch ≠ o.patch then natCmp v.patch o.patch
  else if v.pre.isEmpty && o.pre.isEmpty then 0
  else if v.pre.isEmpty then 1
  else if o.pre.isEmpty then -1
  else preListCmp v.pre o.pre

/-! ## Version constraints (`internal/common`) -/

/-- `common.Constraint`. -/
structure Constraint where
  op : String
  ver : String
deriving DecidableEq, Repr

/-- The constraint loop body of `common.SatisfiesConstraints`. -/
def satLoop (v : SemVer) : List Constraint → Bool
  | [] => true
  | c :: rest =>
    if c.op = "" then satLoop v rest
    else
      match ParseTolerant c.ver with
      | none => false
      | some cv =>
        if c.op = "==" then
          if semverCompare v cv ≠ 0 then false else satLoop v rest
        else if c.op = ">=" then
          if semverCompare v cv = -1 then false else satLoop v rest
        else if c.op = "<=" then
          if semverCompare v cv = 1 then false else satLoop v rest
        else if c.op = ">" then
          if ¬ semverCompare v cv = 1 then false else satLoop v rest
        else if c.op = "<" then
          if ¬ semverCompare v cv = -1 then false else satLoop v rest
        else false

/-- `common.SatisfiesConstraints` (src/internal/common/client_helpers.go). -/
def SatisfiesConstraints (version : String) (constraints : List Constraint) : Bool :=
  if constraints.length = 0 then true
  else
    match ParseTolerant version with
    | none => false
    | some v => satLoop v constraints

/-- Specification-side meaning of a single constraint holding of a parsed
version `v` under tolerant-semver ordering. -/
def ConstraintHolds (v : SemVer) (c : Constraint) : Prop :=
  ∃ cv, ParseTolerant c.ver = some cv ∧
    ((c.op = "==" ∧ semverCompare v cv = 0) ∨
     (c.op = ">=" ∧ semverCompare v cv ≠ -1) ∨
     (c.op = "<=" ∧ semverCompare v cv ≠ 1) ∨
     (c.op = ">" ∧ semverCompare v cv = 1) ∨
     (c.op = "<" ∧ semverCompare v cv = -1))

lemma constraintHolds_iff_of_parse (pv : SemVer) (c : Constraint) (cv : SemVer)
    (hpv : ParseTolerant c.ver = some cv) :
    ConstraintHolds pv c ↔
      ((c.op = "==" ∧ semverCompare pv cv = 0) ∨
       (c.op = ">=" ∧ semverCompare pv cv ≠ -1) ∨
       (c.op = "<=" ∧ semverCompare pv cv ≠ 1) ∨
       (c.op = ">" ∧ semverCompare pv cv = 1) ∨
       (c.op = "<" ∧ semverCompare pv cv = -1)) := by
  constructor
  · rintro ⟨cv', h1, h2⟩
    rw [hpv] at h1
    cases h1
    exact h2
  · intro h
    exact ⟨cv, hpv, h⟩

lemma satLoop_iff (pv : SemVer) (S : List Constraint) :
    satLoop pv S = true ↔ ∀ c ∈ S, c.op ≠ "" → ConstraintHolds pv c := by
  induction S with
  | nil => simp [satLoop]
  | cons c rest ih =>
    simp only [List.mem_cons, forall_eq_or_imp]
    by_cases hop : c.op = ""
    · rw [satLoop, if_pos hop]
      simp [hop, ih]
    · rw [satLoop, if_neg hop]
      split
      · rename_i hpv
        simp only [Bool.false_eq_true, false_iff, not_and]
        intro h _
        rcases h hop with ⟨cv, hcv, _⟩
        rw [hpv] at hcv
        cases hcv
      · rename_i cv hpv
        have hch := constraintHolds_iff_of_parse pv c cv hpv
        by_cases h1 : c.op = "=="
        · rw [if_pos h1]
          by_cases hc : semverCompare pv cv = 0 <;>
            simp [hc, ih, hch, h1, hop]
        · rw [if_neg h1]
          by_cases h2 : c.op = ">="
          · rw [if_pos h2]
            by_cases hc : semverCompare pv cv = -1 <;>
              simp [hc, ih, hch, h2, hop, h2 ▸ h1]
          · rw [if_neg h2]
            by_cases h3 : c.op = "<="
            · rw [if_pos h3]
              by_cases hc : semverCompare pv cv = 1 <;>
                simp [hc, ih, hch, h3, hop, h3 ▸ h1, h3 ▸ h2]
            · rw [if_neg h3]
              by_cases h4 : c.op = ">"
              · rw [if_pos h4]
                by_cases hc : semverCompare pv cv = 1 <;>
                  simp [hc, ih, hch, h4, hop, h4 ▸ h1, h4 ▸ h2, h4 ▸ h3]
              · rw [if_neg h4]
                by_cases h5 : c.op = "<"
                · rw [if_pos h5]
                  by_cases hc : semverCompare pv cv = -1 <;>
                    simp [hc, ih, hch, h5, hop, h5 ▸ h1, h5 ▸ h2, h5 ▸ h3, h5 ▸ h4]
                · rw [if_neg h5]
                  simp only [Bool.false_eq_true, false_iff, not_and]
                  intro h _
                  rcases (hch.mp (h hop)) with ⟨he, _⟩ | ⟨he, _⟩ | ⟨he, _⟩ | ⟨he, _⟩ | ⟨he, _⟩ <;>
                    [exact h1 he; exact h2 he; exact h3 he; exact h4 he; exact h5 he]

lemma satisfiesConstraints_of_parse (v : String) (pv : SemVer) (S : List Constraint)
    (hpv : ParseTolerant v = some pv) :
    SatisfiesConstraints v S = satLoop pv S := by
  rcases S with _ | ⟨c, rest⟩
  · simp [SatisfiesConstraints, satLoop]
  · rw [SatisfiesConstraints, if_neg (by simp), hpv]

/-- C2: `SatisfiesConstraints v S` is true iff every constraint in `S`
with a non-empty operator holds of `v` under tolerant-semver ordering
(with an unparseable constraint version or an unknown operator failing
the set); the empty set is trivially satisfied; and an unparseable `v`
fails every non-empty set. -/
theorem satisfiesConstraints_spec (v : String) (S : List Constraint) :
    SatisfiesConstraints v [] = true
    ∧ (S ≠ [] → ParseTolerant v = none → SatisfiesConstraints v S = false)
    ∧ (∀ pv, ParseTolerant v = some pv →
        (SatisfiesConstraints v S = true ↔ ∀ c ∈ S, c.op ≠ "" → ConstraintHolds pv c)) := by
  refine ⟨by simp [SatisfiesConstraints], ?_, ?_⟩
  · intro hS hv
    rcases S with _ | ⟨c, rest⟩
    · exact absurd rfl hS
    · rw [SatisfiesConstraints, if_neg (by simp), hv]
  · intro pv hpv
    rw [satisfiesConstraints_of_parse v pv S hpv]
    exact satLoop_iff pv S

/-- C2 witness: a concrete evaluation through `satisfiesConstraints_spec`. -/
theorem satisfiesConstraints_spec_witness :
    SatisfiesConstraints "1.2.0" [⟨">=", "1.1"⟩, ⟨"<", "2.0"⟩] = true := by
  refine ((satisfiesConstraints_spec "1.2.0" [⟨">=", "1.1"⟩, ⟨"<", "2.0"⟩]).2.2
    ⟨1, 2, 0, [], []⟩ (by decide)).mpr ?_
  intro c hc _
  simp only [List.mem_cons, List.not_mem_nil, or_false] at hc
  rcases hc with hc | hc
  · exact hc ▸ ⟨⟨1, 1, 0, [], []⟩, by decide, Or.inr (Or.inl ⟨rfl, by decide⟩)⟩
  · exact hc ▸ ⟨⟨2, 0, 0, [], []⟩, by decide, Or.inr (Or.inr (Or.inr (Or.inr ⟨rfl, by decide⟩)))⟩

/-! ## `common.ParseDep` (src/unnamed/part_000, the regex-based parser)

The anchored RE2 pattern `^([^\s<>=]+)\s*(>=|<=|>|<|==)?\s*(.*)$` is
modelled by `depMatch`: the greedy name group takes the maximal run of
non-space non-operator characters, each greedy `\s*` takes the maximal
run of RE2 white space, the alternation is tried in source order, and
the final `(.*)$` succeeds exactly when the remainder contains no
newline (`.` never matches a newline and the pattern is anchored). -/

/-- The operator characters excluded from the name group. -/
def isOpChar (c : Char) : Bool :=
  c == '<' || c == '>' || c == '='

/-- Characters admitted by the name group `[^\s<>=]+`. -/
def nameChar (c : Char) : Bool :=
  !(isRegexSpace c) && !(isOpChar c)

/-- The operator alternation `(>=|<=|>|<|==)?`, tried in source order. -/
def matchOp (l : List Char) : List Char × List Char :=
  if l.take 2 = ['>', '='] then (['>', '='], l.drop 2)
  else if l.take 2 = ['<', '='] then (['<', '='], l.drop 2)
  else if l.take 1 = ['>'] then (['>'], l.drop 1)
  else if l.take 1 = ['<'] then (['<'], l.drop 1)
  else if l.take 2 = ['=', '='] then (['=', '='], l.drop 2)
  else ([], l)

/-- `depPattern.FindStringSubmatch`: returns the three capture groups
(name, operator, version remainder) or `none` when the regex fails. -/
def depMatch (l : List Char) : Option (List Char × List Char × List Char) :=
  let nm := l.takeWhile nameChar
  if nm.isEmpty then none
  else
    let r1 := l.dropWhile nameChar
    let r2 := r1.dropWhile isRegexSpace
    let (op, r3) := matchOp r2
    let r4 := r3.dropWhile isRegexSpace
    if r4.contains '\n' then none
    else some (nm, op, r4)

/-- Error cases of `common.ParseDep`, one per `fmt.Errorf` site. -/
inductive DepError where
  | emptyDep
  | invalidFormat
  | opNoVersion
  | versionNoOp
  | invalidOp
  | invalidVersion
deriving DecidableEq, Repr

/-- The `validOps` set. -/
def validOpGo (s : List Char) : Bool :=
  s = ">=".data || s = "<=".data || s = ">".data || s = "<".data || s = "==".data

/-- `common.ParseDep` (src/unnamed/part_000 lines 172-218). -/
def ParseDep (dep : String) : Except DepError (String × Constraint) :=
  let d := trimSpaceL dep.data
  if d.isEmpty then .error .emptyDep
  else
    match depMatch d with
    | none => .error .invalidFormat
    | some (nm, op, rem) =>
      let name := trimSpaceL nm
      let verStr := trimSpaceL rem
      if op.isEmpty && verStr.isEmpty then .ok (⟨name⟩, ⟨"", ""⟩)
      else if !op.isEmpty && verStr.isEmpty then .error .opNoVersion
      else if op.isEmpty && !verStr.isEmpty then .error .versionNoOp
      else
        let verStr2 := trimQuotes verStr
        if !(validOpGo op) then .error .invalidOp
        else
          match parseTolerantL verStr2 with
          | none => .error .invalidVersion
          | some _ => .ok (⟨name⟩, ⟨⟨op⟩, ⟨verStr2⟩⟩)

/-! ### List infrastructure lemmas for the string grammar proofs -/

lemma dropWhile_cons_false {p : Char → Bool} {c : Char} {t : List Char} (h : p c = false) :
    (c :: t).dropWhile p = c :: t := by
  simp [List.dropWhile_cons, h]

lemma takeWhile_append_cons {p : Char → Bool} {n : List Char} {c : Char} {r : List Char}
    (hn : ∀ x ∈ n, p x = true) (hc : p c = false) :
    (n ++ c :: r).takeWhile p = n := by
  induction n with
  | nil => simp [List.takeWhile_cons, hc]
  | cons a t ih =>
    simp only [List.cons_append, List.takeWhile_cons, hn a (by simp)]
    simp [ih (fun x hx => hn x (by simp [hx]))]

lemma dropWhile_append_cons {p : Char → Bool} {n : List Char} {c : Char} {r : List Char}
    (hn : ∀ x ∈ n, p x = true) (hc : p c = false) :
    (n ++ c :: r).dropWhile p = c :: r := by
  induction n with
  | nil => simp [List.dropWhile_cons, hc]
  | cons a t ih =>
    simp only [List.cons_append, List.dropWhile_cons, hn a (by simp)]
    simp [ih (fun x hx => hn x (by simp [hx]))]

lemma takeWhile_eq_self {p : Char → Bool} {n : List Char} (hn : ∀ x ∈ n, p x = true) :
    n.takeWhile p = n := by
  induction n with
  | nil => rfl
  | cons a t ih =>
    simp only [List.takeWhile_cons, hn a (by simp)]
    simp [ih (fun x hx => hn x (by simp [hx]))]

lemma dropWhile_eq_nil {p : Char → Bool} {n : List Char} (hn : ∀ x ∈ n, p x = true) :
    n.dropWhile p = [] := by
  induction n with
  | nil => rfl
  | cons a t ih =>
    simp only [List.dropWhile_cons, hn a (by simp)]
    simp [ih (fun x hx => hn x (by simp [hx]))]

lemma dropWhile_append_ne_nil {p : Char → Bool} {x : List Char} {c : Char} {t y : List Char}
    (h : x.dropWhile p = c :: t) :
    (x ++ y).dropWhile p = c :: (t ++ y) := by
  induction x with
  | nil => cases h
  | cons a xs ih =>
    by_cases ha : p a = true
    · rw [List.dropWhile_cons, if_pos ha] at h
      simpa [List.dropWhile_cons, ha] using ih h
    · rw [List.dropWhile_cons, if_neg ha] at h
      cases h
      simp [List.dropWhile_cons, Bool.of_not_eq_true ha]

lemma dropWhile_dropWhile_subset {p q : Char → Bool} {l : List Char}
    (himp : ∀ c, q c = true → p c = true) :
    (l.dropWhile q).dropWhile p = l.dropWhile p := by
  induction l with
  | nil => rfl
  | cons a t ih =>
    by_cases ha : q a = true
    · rw [List.dropWhile_cons, if_pos ha, ih, List.dropWhile_cons, if_pos (himp a ha)]
    · rw [List.dropWhile_cons, if_neg ha]

lemma dropWhile_suffix' (p : Char → Bool) (l : List Char) : l.dropWhile p <:+ l := by
  induction l with
  | nil => exact List.suffix_refl _
  | cons a t ih =>
    rw [List.dropWhile_cons]
    by_cases ha : p a = true
    · rw [if_pos ha]
      exact ih.trans (List.suffix_cons a t)
    · rw [if_neg ha]

lemma dropWhile_eq_self_of_length {p : Char → Bool} {l : List Char}
    (h : (l.dropWhile p).length = l.length) : l.dropWhile p = l :=
  (dropWhile_suffix' p l).sublist.eq_of_length h

/-- If the head survives trimming, `rdropGo` keeps a list of the same head. -/
lemma rdropGo_cons {c : Char} {t : List Char} (h : isGoSpace c = false) :
    ∃ t', rdropGo (c :: t) = c :: t' := by
  unfold rdropGo
  have : ∃ u, (t.reverse ++ [c]).dropWhile isGoSpace = u ++ [c] := by
    induction t.reverse with
    | nil => exact ⟨[], by simp [List.dropWhile_cons, h]⟩
    | cons a l ih =>
      by_cases ha : isGoSpace a = true
      · rcases ih with ⟨u, hu⟩
        exact ⟨u, by simp [List.dropWhile_cons, ha, hu]⟩
      · exact ⟨a :: l, by simp [List.dropWhile_cons, ha]⟩
  rcases this with ⟨u, hu⟩
  exact ⟨u.reverse, by simp [hu]⟩

lemma trimSpaceL_cons {c : Char} {t : List Char} (h : isGoSpace c = false) :
    ∃ t', trimSpaceL (c :: t) = c :: t' := by
  unfold trimSpaceL
  rw [dropWhile_cons_false h]
  exact rdropGo_cons h

lemma trimQuotes_cons {c : Char} {t : List Char} (h : isQuoteChar c = false) :
    ∃ t', trimQuotes (c :: t) = c :: t' := by
  unfold trimQuotes
  rw [dropWhile_cons_false h]
  have : ∃ u, (t.reverse ++ [c]).dropWhile isQuoteChar = u ++ [c] := by
    induction t.reverse with
    | nil => exact ⟨[], by simp [List.dropWhile_cons, h]⟩
    | cons a l ih =>
      by_cases ha : isQuoteChar a = true
      · rcases ih with ⟨u, hu⟩
        exact ⟨u, by simp [List.dropWhile_cons, ha, hu]⟩
      · exact ⟨a :: l, by simp [List.dropWhile_cons, ha]⟩
  rcases this with ⟨u, hu⟩
  exact ⟨u.reverse, by simp [hu]⟩

lemma rdropGo_append {a b : List Char} (hb : rdropGo b ≠ []) :
    rdropGo (a ++ b) = a ++ rdropGo b := by
  unfold rdropGo at *
  rcases hbr : b.reverse.dropWhile isGoSpace with _ | ⟨c, t⟩
  · rw [hbr] at hb
    simp at hb
  · rw [List.reverse_append, dropWhile_append_ne_nil hbr]
    simp

lemma rdropGo_length_le (l : List Char) : (rdropGo l).length ≤ l.length := by
  unfold rdropGo
  simpa using (dropWhile_suffix' isGoSpace l.reverse).sublist.length_le

lemma trimSpaceL_eq_rdrop (l : List Char) :
    trimSpaceL l = rdropGo (l.dropWhile isGoSpace) := rfl

lemma rdropGo_eq_self_of_length {l : List Char} (h : (rdropGo l).length = l.length) :
    rdropGo l = l := by
  unfold rdropGo at *
  have h2 : (l.reverse.dropWhile isGoSpace).length = l.reverse.length := by
    simpa using h
  rw [dropWhile_eq_self_of_length h2, List.reverse_reverse]

/-- A string fixed by `TrimSpace` is fixed by each one-sided trim. -/
lemma trimmed_parts {v : List Char} (h : trimSpaceL v = v) :
    v.dropWhile isGoSpace = v ∧ rdropGo v = v := by
  rw [trimSpaceL_eq_rdrop] at h
  have hlen1 : (v.dropWhile isGoSpace).length ≤ v.length :=
    (dropWhile_suffix' isGoSpace v).sublist.length_le
  have hlen2 : (rdropGo (v.dropWhile isGoSpace)).length ≤ (v.dropWhile isGoSpace).length :=
    rdropGo_length_le _
  have hlen : (rdropGo (v.dropWhile isGoSpace)).length = v.length := by rw [h]
  have he1 : (v.dropWhile isGoSpace).length = v.length := le_antisymm hlen1 (by omega)
  have he2 : v.dropWhile isGoSpace = v := dropWhile_eq_self_of_length he1
  refine ⟨he2, ?_⟩
  rw [he2] at h
  exact h

lemma trimSpaceL_eq_self_of_no_space {l : List Char} (h : ∀ c ∈ l, isGoSpace c = false) :
    trimSpaceL l = l := by
  rw [trimSpaceL_eq_rdrop]
  unfold rdropGo
  have h1 : l.dropWhile isGoSpace = l := by
    cases l with
    | nil => rfl
    | cons a t => exact dropWhile_cons_false (h a (by simp))
  rw [h1]
  have h2 : l.reverse.dropWhile isGoSpace = l.reverse := by
    cases hr : l.reverse with
    | nil => rfl
    | cons a t =>
      refine dropWhile_cons_false (h a ?_)
      have : a ∈ l.reverse := by rw [hr]; simp
      simpa using this
  rw [h2, List.reverse_reverse]

/-! ### `breakAt` / `splitBounded` / `joinSep` relations -/

lemma breakAt_not_mem {sep : Char} {l : List Char} (h : sep ∉ l) : breakAt sep l = none := by
  induction l with
  | nil => rfl
  | cons c t ih =>
    have hc : ¬ (c == sep) = true := by
      simp only [beq_iff_eq]
      rintro rfl
      exact h (List.mem_cons_self c t)
    rw [breakAt, if_neg hc, ih (fun hm => h (List.mem_cons_of_mem _ hm))]

lemma breakAt_append_sep {sep : Char} {a r : List Char} (h : sep ∉ a) :
    breakAt sep (a ++ sep :: r) = some (a, r) := by
  induction a with
  | nil => simp [breakAt]
  | cons c t ih =>
    have hc : ¬ (c == sep) = true := by
      simp only [beq_iff_eq]
      rintro rfl
      exact h (List.mem_cons_self c t)
    rw [List.cons_append, breakAt, if_neg hc,
      ih (fun hm => h (List.mem_cons_of_mem _ hm))]

lemma breakAt_eq_some {sep : Char} {l a b : List Char} (h : breakAt sep l = some (a, b)) :
    sep ∉ a ∧ l = a ++ sep :: b := by
  induction l generalizing a with
  | nil => cases h
  | cons c t ih =>
    rw [breakAt] at h
    by_cases hc : (c == sep) = true
    · rw [if_pos hc] at h
      cases h
      simp [beq_iff_eq.mp hc]
    · rw [if_neg hc] at h
      rcases hbt : breakAt sep t with _ | ⟨x, y⟩ <;> rw [hbt] at h
      · cases h
      · cases h
        rcases ih hbt with ⟨h1, h2⟩
        refine ⟨?_, by simp [h2]⟩
        intro hm
        rcases List.mem_cons.mp hm with rfl | hm
        · exact hc (beq_iff_eq.mpr rfl)
        · exact h1 hm

lemma splitBounded_two (sep : Char) (l : List Char) :
    splitBounded sep 2 l =
      match breakAt sep l with
      | none => [l]
      | some (a, b) =>
        a :: (match breakAt sep b with
          | none => [b]
          | some (c, d) => [c, d]) := rfl

lemma splitBounded_one (sep : Char) (l : List Char) :
    splitBounded sep 1 l =
      match breakAt sep l with
      | none => [l]
      | some (a, b) => [a, b] := rfl

lemma parseNumPart_none_of_mem {l : List Char} {c : Char} (hm : c ∈ l)
    (hd : c.isDigit = false) : parseNumPart l = none := by
  have hall : l.all Char.isDigit = false := by
    rw [Bool.eq_false_iff]
    intro h
    rw [List.all_eq_true] at h
    rw [h c hm] at hd
    cases hd
  have hne : l.isEmpty = false := by
    cases l
    · cases hm
    · rfl
  rw [parseNumPart, if_neg (by simp [hne]), if_pos (by simp [hall])]

lemma semverParseL_join_first_none {x : List Char} {xs : List (List Char)}
    (hdot : '.' ∉ x) (hx : parseNumPart x = none) :
    semverParseL (joinSep '.' (x :: xs)) = none := by
  cases xs with
  | nil =>
    show semverParseL x = none
    rw [semverParseL]
    by_cases he : x.isEmpty = true
    · rw [if_pos he]
    · rw [if_neg he, splitBounded_two, breakAt_not_mem hdot]
  | cons y ys =>
    show semverParseL (x ++ '.' :: joinSep '.' (y :: ys)) = none
    rw [semverParseL]
    have hne : ¬ (x ++ '.' :: joinSep '.' (y :: ys)).isEmpty = true := by
      cases x <;> simp
    rw [if_neg hne, splitBounded_two, breakAt_append_sep hdot]
    rcases hb : breakAt '.' (joinSep '.' (y :: ys)) with _ | ⟨a, b⟩ <;> simp [hb, hx]

lemma head_not_space_of_trimmed {c : Char} {t : List Char}
    (h : trimSpaceL (c :: t) = c :: t) : isGoSpace c = false := by
  rcases trimmed_parts h with ⟨h1, -⟩
  by_contra hcon
  rw [Bool.not_eq_false] at hcon
  rw [List.dropWhile_cons, if_pos hcon] at h1
  have hle := (dropWhile_suffix' isGoSpace t).sublist.length_le
  rw [h1] at hle
  simp at hle

lemma tolerantFixPart_head_bad {c : Char} {p : List Char}
    (hdig : c.isDigit = false) (hz : c ≠ '0') (hdot : '.' ∉ c :: p) :
    parseNumPart (tolerantFixPart (c :: p)) = none ∧ '.' ∉ tolerantFixPart (c :: p) := by
  cases p with
  | nil =>
    have : tolerantFixPart [c] = [c] := by
      rw [tolerantFixPart, if_neg (by simp)]
    rw [this]
    exact ⟨parseNumPart_none_of_mem (by simp) hdig, hdot⟩
  | cons q qs =>
    have hlen : 1 < (c :: q :: qs : List Char).length := by simp
    have hdw : (c :: q :: qs).dropWhile (· == '0') = c :: q :: qs :=
      dropWhile_cons_false (by simp [hz])
    have : tolerantFixPart (c :: q :: qs) = '0' :: c :: q :: qs := by
      rw [tolerantFixPart, if_pos hlen]
      simp only [hdw]
      rw [if_neg (by simp [hdig])]
    rw [this]
    constructor
    · exact parseNumPart_none_of_mem (by simp) hdig
    · intro hm
      rcases List.mem_cons.mp hm with h0 | hm
      · cases h0
      · exact hdot hm

lemma breakAt_none_not_mem {sep : Char} {l : List Char} (h : breakAt sep l = none) :
    sep ∉ l := by
  induction l with
  | nil => simp
  | cons c t ih =>
    rw [breakAt] at h
    by_cases hc : (c == sep) = true
    · rw [if_pos hc] at h
      cases h
    · rw [if_neg hc] at h
      intro hm
      rcases List.mem_cons.mp hm with h0 | hm
      · exact hc (beq_iff_eq.mpr h0.symm)
      · rcases hbt : breakAt sep t with _ | ⟨x, y⟩
        · exact ih hbt hm
        · rw [hbt] at h
          cases h

lemma parseTolerantL_head_bad_none {c : Char} {t : List Char}
    (hdig : c.isDigit = false) (hv : c ≠ 'v') (hsp : isGoSpace c = false)
    (hdot : c ≠ '.') (hz : c ≠ '0') :
    parseTolerantL (c :: t) = none := by
  obtain ⟨t1, ht1⟩ := trimSpaceL_cons (t := t) hsp
  have hcv : ((c :: t1 : List Char).head? == some 'v') = false := by
    simp [hv]
  simp only [parseTolerantL, ht1, hcv, Bool.false_eq_true, if_false]
  rcases hbt : breakAt '.' t1 with _ | ⟨a, b⟩
  · have hb1 : breakAt '.' (c :: t1) = none := by
      rw [breakAt, if_neg (by simp [hdot]), hbt]
    rw [splitBounded_two, hb1]
    have hnm : '.' ∉ c :: t1 := by
      intro hm
      rcases List.mem_cons.mp hm with h0 | hm
      · exact hdot h0.symm
      · exact breakAt_none_not_mem hbt hm
    rcases tolerantFixPart_head_bad hdig hz hnm with ⟨hf1, hf2⟩
    simp only [List.map_cons, List.map_nil, List.length_cons, List.length_nil]
    rw [if_pos (by omega)]
    simp only [List.getLast?_singleton]
    by_cases hany : (tolerantFixPart (c :: t1)).any (fun c => c == '+' || c == '-') = true
    · rw [if_pos hany]
    · rw [if_neg hany]
      exact semverParseL_join_first_none hf2 hf1
  · have hb1 : breakAt '.' (c :: t1) = some (c :: a, b) := by
      rw [breakAt, if_neg (by simp [hdot]), hbt]
    rw [splitBounded_two, hb1]
    have hnm : '.' ∉ c :: a := by
      intro hm
      rcases List.mem_cons.mp hm with h0 | hm
      · exact hdot h0.symm
      · exact (breakAt_eq_some hbt).1 hm
    rcases tolerantFixPart_head_bad hdig hz hnm with ⟨hf1, hf2⟩
    rcases hbb : breakAt '.' b with _ | ⟨x, y⟩
    · simp only [hbb, List.map_cons, List.map_nil, List.length_cons, List.length_nil]
      rw [if_pos (by omega)]
      simp only [List.getLast?_cons_cons, List.getLast?_singleton]
      by_cases hany : (tolerantFixPart b).any (fun c => c == '+' || c == '-') = true
      · rw [if_pos hany]
      · rw [if_neg hany]
        exact semverParseL_join_first_none hf2 hf1
    · simp only [hbb, List.map_cons, List.map_nil, List.length_cons, List.length_nil]
      rw [if_neg (by omega)]
      exact semverParseL_join_first_none hf2 hf1

lemma regexSpace_imp_goSpace {c : Char} (h : isRegexSpace c = true) : isGoSpace c = true := by
  simp only [isRegexSpace, Bool.or_eq_true, beq_iff_eq] at h
  simp only [isGoSpace, Bool.or_eq_true, beq_iff_eq]
  tauto

lemma regexSpace_false {c : Char} (h : isGoSpace c = false) : isRegexSpace c = false := by
  rw [Bool.eq_false_iff] at h ⊢
  exact fun hc => h (regexSpace_imp_goSpace hc)

lemma nameChar_true {c : Char} (h1 : isGoSpace c = false) (h2 : isOpChar c = false) :
    nameChar c = true := by
  rw [nameChar, regexSpace_false h1, h2]
  rfl

lemma contains_newline_false {l : List Char} (h : '\n' ∉ l) : l.contains '\n' = false := by
  rw [Bool.eq_false_iff]
  intro hcon
  exact h (by simpa using hcon)

lemma rdropGo_append_space {X : List Char} {c : Char} (h : isGoSpace c = true) :
    rdropGo (X ++ [c]) = rdropGo X := by
  unfold rdropGo
  rw [List.reverse_append, List.reverse_singleton, List.singleton_append,
    List.dropWhile_cons, if_pos h]

/-- The regex match on a well-formed `name op version` input. -/
lemma depMatch_spaced {N O V : List Char} {o1 vc : Char} {ot vt : List Char}
    (hNchar : ∀ c ∈ N, nameChar c = true)
    (hNne : N.isEmpty = false)
    (hO : O = o1 :: ot) (ho1 : isGoSpace o1 = false)
    (hOm : matchOp (O ++ ' ' :: V) = (O, ' ' :: V))
    (hV : V = vc :: vt) (hvc : isGoSpace vc = false)
    (hnl : '\n' ∉ V) :
    depMatch (N ++ ' ' :: (O ++ ' ' :: V)) = some (N, O, V) := by
  have ht1 : (N ++ ' ' :: (O ++ ' ' :: V)).takeWhile nameChar = N :=
    takeWhile_append_cons hNchar (by decide)
  have ht2 : (N ++ ' ' :: (O ++ ' ' :: V)).dropWhile nameChar = ' ' :: (O ++ ' ' :: V) :=
    dropWhile_append_cons hNchar (by decide)
  have ht3 : (' ' :: (O ++ ' ' :: V)).dropWhile isRegexSpace = O ++ ' ' :: V := by
    rw [List.dropWhile_cons, if_pos (by decide), hO, List.cons_append]
    exact dropWhile_cons_false (regexSpace_false ho1)
  have ht4 : (' ' :: V).dropWhile isRegexSpace = V := by
    rw [List.dropWhile_cons, if_pos (by decide), hV]
    exact dropWhile_cons_false (regexSpace_false hvc)
  have hcont : V.contains '\n' = false := contains_newline_false hnl
  simp only [depMatch, ht1, ht2, ht3, hOm, ht4, hcont, hNne, Bool.false_eq_true,
    if_false]

lemma opChar_goSpace_false {c : Char} (h : isOpChar c = true) : isGoSpace c = false := by
  simp only [isOpChar, Bool.or_eq_true, beq_iff_eq] at h
  rcases h with (h | h) | h <;> subst h <;> rfl

lemma nameChar_false_of_op {c : Char} (h : isOpChar c = true) : nameChar c = false := by
  rw [nameChar, h]
  simp

lemma opChar_false_ne {c : Char} (h : isOpChar c = false) :
    c ≠ '<' ∧ c ≠ '>' ∧ c ≠ '=' := by
  refine ⟨?_, ?_, ?_⟩ <;> rintro rfl <;> simp [isOpChar] at h

lemma matchOp_no_op {vc : Char} {vt : List Char} (h : isOpChar vc = false) :
    matchOp (vc :: vt) = ([], vc :: vt) := by
  rcases opChar_false_ne h with ⟨h1, h2, h3⟩
  rw [matchOp]
  rw [if_neg (by cases vt <;> simp [h2]), if_neg (by cases vt <;> simp [h1]),
    if_neg (by simp [h2]), if_neg (by simp [h1]), if_neg (by cases vt <;> simp [h3])]

/-- The regex match on the no-space form `nameopversion`. -/
lemma depMatch_nospace {N O V : List Char} {o1 vc : Char} {ot vt : List Char}
    (hNchar : ∀ c ∈ N, nameChar c = true)
    (hNne : N.isEmpty = false)
    (hO : O = o1 :: ot) (ho1 : isOpChar o1 = true)
    (hOm : matchOp (O ++ V) = (O, V))
    (hV : V = vc :: vt) (hvc : isGoSpace vc = false)
    (hnl : '\n' ∉ V) :
    depMatch (N ++ (O ++ V)) = some (N, O, V) := by
  have hsh : N ++ (O ++ V) = N ++ o1 :: (ot ++ V) := by rw [hO]; simp
  have ht1 : (N ++ o1 :: (ot ++ V)).takeWhile nameChar = N :=
    takeWhile_append_cons hNchar (nameChar_false_of_op ho1)
  have ht2 : (N ++ o1 :: (ot ++ V)).dropWhile nameChar = o1 :: (ot ++ V) :=
    dropWhile_append_cons hNchar (nameChar_false_of_op ho1)
  have ht3 : (o1 :: (ot ++ V)).dropWhile isRegexSpace = o1 :: (ot ++ V) :=
    dropWhile_cons_false (regexSpace_false (opChar_goSpace_false ho1))
  have hOm' : matchOp (o1 :: (ot ++ V)) = (O, V) := by
    rw [← List.cons_append, ← hO]
    exact hOm
  have ht4 : V.dropWhile isRegexSpace = V := by
    rw [hV]
    exact dropWhile_cons_false (regexSpace_false hvc)
  have hcont : V.contains '\n' = false := contains_newline_false hnl
  rw [hsh]
  simp only [depMatch, ht1, ht2, ht3, hOm', ht4, hcont, hNne, Bool.false_eq_true, if_false]

/-- The regex match on `name op` with an empty version remainder. -/
lemma depMatch_opOnly {N O : List Char} {o1 : Char} {ot : List Char}
    (hNchar : ∀ c ∈ N, nameChar c = true)
    (hNne : N.isEmpty = false)
    (hO : O = o1 :: ot) (ho1 : isGoSpace o1 = false)
    (hOm : matchOp O = (O, [])) :
    depMatch (N ++ ' ' :: O) = some (N, O, []) := by
  have ht1 : (N ++ ' ' :: O).takeWhile nameChar = N :=
    takeWhile_append_cons hNchar (by decide)
  have ht2 : (N ++ ' ' :: O).dropWhile nameChar = ' ' :: O :=
    dropWhile_append_cons hNchar (by decide)
  have ht3 : (' ' :: O).dropWhile isRegexSpace = O := by
    rw [List.dropWhile_cons, if_pos (by decide), hO]
    exact dropWhile_cons_false (regexSpace_false ho1)
  simp only [depMatch, ht1, ht2, ht3, hOm, hNne, Bool.false_eq_true, if_false,
    List.dropWhile_nil, List.contains, List.elem_nil]

/-- The regex match on `name version` with no operator. -/
lemma depMatch_verOnly {N V : List Char} {vc : Char} {vt : List Char}
    (hNchar : ∀ c ∈ N, nameChar c = true)
    (hNne : N.isEmpty = false)
    (hV : V = vc :: vt) (hvc : isGoSpace vc = false) (hvcop : isOpChar vc = false)
    (hnl : '\n' ∉ V) :
    depMatch (N ++ ' ' :: V) = some (N, [], V) := by
  have ht1 : (N ++ ' ' :: V).takeWhile nameChar = N :=
    takeWhile_append_cons hNchar (by decide)
  have ht2 : (N ++ ' ' :: V).dropWhile nameChar = ' ' :: V :=
    dropWhile_append_cons hNchar (by decide)
  have ht3 : (' ' :: V).dropWhile isRegexSpace = V := by
    rw [List.dropWhile_cons, if_pos (by decide), hV]
    exact dropWhile_cons_false (regexSpace_false hvc)
  have hOm : matchOp V = ([], V) := by
    rw [hV]
    exact matchOp_no_op hvcop
  have ht4 : V.dropWhile isRegexSpace = V := by
    rw [hV]
    exact dropWhile_cons_false (regexSpace_false hvc)
  have hcont : V.contains '\n' = false := contains_newline_false hnl
  simp only [depMatch, ht1, ht2, ht3, hOm, ht4, hcont, hNne, Bool.false_eq_true, if_false]

/-- Unfolds `ParseDep` once the trim and the regex match are known. -/
lemma parseDep_run {s : String} {D N O V : List Char}
    (hds : trimSpaceL s.data = D) (hDne : D.isEmpty = false)
    (hm : depMatch D = some (N, O, V)) :
    ParseDep s =
      (if O.isEmpty && (trimSpaceL V).isEmpty then
        .ok (⟨trimSpaceL N⟩, ⟨"", ""⟩)
      else if !O.isEmpty && (trimSpaceL V).isEmpty then .error .opNoVersion
      else if O.isEmpty && !(trimSpaceL V).isEmpty then .error .versionNoOp
      else if !(validOpGo O) then .error .invalidOp
      else
        match parseTolerantL (trimQuotes (trimSpaceL V)) with
        | none => .error .invalidVersion
        | some _ => .ok (⟨trimSpaceL N⟩, ⟨⟨O⟩, ⟨trimQuotes (trimSpaceL V)⟩⟩)) := by
  simp only [ParseDep, hds, hDne, hm, Bool.false_eq_true, if_false]

lemma parseDep_core_spaced {N O V : List Char} {o1 vc : Char} {ot vt : List Char} {w : SemVer}
    (hNne : N ≠ [])
    (hNs : ∀ c ∈ N, isGoSpace c = false ∧ isOpChar c = false)
    (hO : O = o1 :: ot) (ho1 : isGoSpace o1 = false)
    (hOop : validOpGo O = true)
    (hOm : matchOp (O ++ ' ' :: V) = (O, ' ' :: V))
    (htrimV : trimSpaceL V = V) (hV : V = vc :: vt)
    (hnl : '\n' ∉ V)
    (hw : parseTolerantL (trimQuotes V) = some w) :
    ParseDep ⟨N ++ ' ' :: (O ++ ' ' :: V)⟩ = .ok (⟨N⟩, ⟨⟨O⟩, ⟨trimQuotes V⟩⟩) := by
  obtain ⟨nc, nt, rfl⟩ : ∃ nc nt, N = nc :: nt := by
    rcases N with _ | ⟨nc, nt⟩
    · exact absurd rfl hNne
    · exact ⟨nc, nt, rfl⟩
  have hvc : isGoSpace vc = false := head_not_space_of_trimmed (hV ▸ htrimV)
  have hrdV : rdropGo V = V := (trimmed_parts htrimV).2
  have hd : trimSpaceL ((nc :: nt) ++ ' ' :: (O ++ ' ' :: V)) =
      (nc :: nt) ++ ' ' :: (O ++ ' ' :: V) := by
    rw [trimSpaceL_eq_rdrop]
    have h1 : ((nc :: nt) ++ ' ' :: (O ++ ' ' :: V)).dropWhile isGoSpace =
        (nc :: nt) ++ ' ' :: (O ++ ' ' :: V) := by
      rw [List.cons_append]
      exact dropWhile_cons_false (hNs nc (by simp)).1
    rw [h1]
    have h2 : (nc :: nt) ++ ' ' :: (O ++ ' ' :: V) =
        ((nc :: nt) ++ ' ' :: (O ++ [' '])) ++ V := by simp
    rw [h2, rdropGo_append (by rw [hrdV, hV]; simp), hrdV, ← h2]
  have hNchar : ∀ c ∈ nc :: nt, nameChar c = true :=
    fun c hc => nameChar_true (hNs c hc).1 (hNs c hc).2
  have hdm := depMatch_spaced hNchar (by rfl) hO ho1 hOm hV hvc hnl
  rw [parseDep_run (s := ⟨(nc :: nt) ++ ' ' :: (O ++ ' ' :: V)⟩) hd (by rfl) hdm]
  have hOe : O.isEmpty = false := by rw [hO]; rfl
  have hVe : V.isEmpty = false := by rw [hV]; rfl
  have hN : trimSpaceL (nc :: nt) = nc :: nt :=
    trimSpaceL_eq_self_of_no_space (fun c hc => (hNs c hc).1)
  simp only [htrimV, hOe, hVe, hOop, hN, hw, Bool.false_and, Bool.and_false,
    Bool.not_false, Bool.not_true, Bool.true_and, Bool.false_eq_true, if_false]

lemma parseDep_core_nospace {N O V : List Char} {o1 vc : Char} {ot vt : List Char} {w : SemVer}
    (hNne : N ≠ [])
    (hNs : ∀ c ∈ N, isGoSpace c = false ∧ isOpChar c = false)
    (hO : O = o1 :: ot) (ho1 : isOpChar o1 = true)
    (hOop : validOpGo O = true)
    (hOm : matchOp (O ++ V) = (O, V))
    (htrimV : trimSpaceL V = V) (hV : V = vc :: vt)
    (hnl : '\n' ∉ V)
    (hw : parseTolerantL (trimQuotes V) = some w) :
    ParseDep ⟨N ++ (O ++ V)⟩ = .ok (⟨N⟩, ⟨⟨O⟩, ⟨trimQuotes V⟩⟩) := by
  obtain ⟨nc, nt, rfl⟩ : ∃ nc nt, N = nc :: nt := by
    rcases N with _ | ⟨nc, nt⟩
    · exact absurd rfl hNne
    · exact ⟨nc, nt, rfl⟩
  have hvc : isGoSpace vc = false := head_not_space_of_trimmed (hV ▸ htrimV)
  have hrdV : rdropGo V = V := (trimmed_parts htrimV).2
  have hd : trimSpaceL ((nc :: nt) ++ (O ++ V)) = (nc :: nt) ++ (O ++ V) := by
    rw [trimSpaceL_eq_rdrop]
    have h1 : ((nc :: nt) ++ (O ++ V)).dropWhile isGoSpace = (nc :: nt) ++ (O ++ V) := by
      rw [List.cons_append]
      exact dropWhile_cons_false (hNs nc (by simp)).1
    rw [h1]
    have h2 : (nc :: nt) ++ (O ++ V) = ((nc :: nt) ++ O) ++ V := by simp
    rw [h2, rdropGo_append (by rw [hrdV, hV]; simp), hrdV, ← h2]
  have hNchar : ∀ c ∈ nc :: nt, nameChar c = true :=
    fun c hc => nameChar_true (hNs c hc).1 (hNs c hc).2
  have hdm := depMatch_nospace hNchar (by rfl) hO ho1 hOm hV hvc hnl
  rw [parseDep_run (s := ⟨(nc :: nt) ++ (O ++ V)⟩) hd (by rfl) hdm]
  have hOe : O.isEmpty = false := by rw [hO]; rfl
  have hVe : V.isEmpty = false := by rw [hV]; rfl
  have hN : trimSpaceL (nc :: nt) = nc :: nt :=
    trimSpaceL_eq_self_of_no_space (fun c hc => (hNs c hc).1)
  simp only [htrimV, hOe, hVe, hOop, hN, hw, Bool.false_and, Bool.and_false,
    Bool.not_false, Bool.not_true, Bool.true_and, Bool.false_eq_true, if_false]

lemma parseDep_core_opOnly {N O : List Char} {o1 : Char} {ot : List Char}
    (hNne : N ≠ [])
    (hNs : ∀ c ∈ N, isGoSpace c = false ∧ isOpChar c = false)
    (hO : O = o1 :: ot) (ho1 : isGoSpace o1 = false)
    (hrdO : rdropGo O = O)
    (hOm : matchOp O = (O, [])) :
    ParseDep ⟨N ++ [' '] ++ O ++ [' ']⟩ = .error .opNoVersion := by
  obtain ⟨nc, nt, rfl⟩ : ∃ nc nt, N = nc :: nt := by
    rcases N with _ | ⟨nc, nt⟩
    · exact absurd rfl hNne
    · exact ⟨nc, nt, rfl⟩
  have hd : trimSpaceL ((nc :: nt) ++ [' '] ++ O ++ [' ']) = (nc :: nt) ++ ' ' :: O := by
    rw [trimSpaceL_eq_rdrop]
    have h1 : ((nc :: nt) ++ [' '] ++ O ++ [' ']).dropWhile isGoSpace =
        ((nc :: nt) ++ [' '] ++ O) ++ [' '] := by
      have hsh : (nc :: nt) ++ [' '] ++ O ++ [' '] = nc :: (nt ++ [' '] ++ O ++ [' ']) := by
        simp
      rw [hsh, dropWhile_cons_false (hNs nc (by simp)).1, ← hsh]
    rw [h1, rdropGo_append_space (by decide)]
    have h2 : (nc :: nt) ++ [' '] ++ O = ((nc :: nt) ++ [' ']) ++ O := by simp
    rw [h2, rdropGo_append (by rw [hrdO, hO]; simp), hrdO]
    simp
  have hNchar : ∀ c ∈ nc :: nt, nameChar c = true :=
    fun c hc => nameChar_true (hNs c hc).1 (hNs c hc).2
  have hdm := depMatch_opOnly hNchar (by rfl) hO ho1 hOm
  rw [parseDep_run (s := ⟨(nc :: nt) ++ [' '] ++ O ++ [' ']⟩) hd (by rfl) hdm]
  have hOe : O.isEmpty = false := by rw [hO]; rfl
  simp only [hOe, Bool.false_and, Bool.not_false, Bool.true_and, Bool.false_eq_true,
    if_false]
  rfl

lemma parseDep_core_verOnly {N V : List Char} {vc : Char} {vt : List Char}
    (hNne : N ≠ [])
    (hNs : ∀ c ∈ N, isGoSpace c = false ∧ isOpChar c = false)
    (htrimV : trimSpaceL V = V) (hV : V = vc :: vt) (hvcop : isOpChar vc = false)
    (hnl : '\n' ∉ V) :
    ParseDep ⟨N ++ ' ' :: V⟩ = .error .versionNoOp := by
  obtain ⟨nc, nt, rfl⟩ : ∃ nc nt, N = nc :: nt := by
    rcases N with _ | ⟨nc, nt⟩
    · exact absurd rfl hNne
    · exact ⟨nc, nt, rfl⟩
  have hvc : isGoSpace vc = false := head_not_space_of_trimmed (hV ▸ htrimV)
  have hrdV : rdropGo V = V := (trimmed_parts htrimV).2
  have hd : trimSpaceL ((nc :: nt) ++ ' ' :: V) = (nc :: nt) ++ ' ' :: V := by
    rw [trimSpaceL_eq_rdrop]
    have h1 : ((nc :: nt) ++ ' ' :: V).dropWhile isGoSpace = (nc :: nt) ++ ' ' :: V := by
      rw [List.cons_append]
      exact dropWhile_cons_false (hNs nc (by simp)).1
    rw [h1]
    have h2 : (nc :: nt) ++ ' ' :: V = ((nc :: nt) ++ [' ']) ++ V := by simp
    rw [h2, rdropGo_append (by rw [hrdV, hV]; simp), hrdV, ← h2]
  have hNchar : ∀ c ∈ nc :: nt, nameChar c = true :=
    fun c hc => nameChar_true (hNs c hc).1 (hNs c hc).2
  have hdm := depMatch_verOnly hNchar (by rfl) hV hvc hvcop hnl
  rw [parseDep_run (s := ⟨(nc :: nt) ++ ' ' :: V⟩) hd (by rfl) hdm]
  have hVe : V.isEmpty = false := by rw [hV]; rfl
  simp only [htrimV, hVe, List.isEmpty_nil, Bool.true_and, Bool.and_false,
    Bool.not_true, Bool.false_and, Bool.not_false, Bool.false_eq_true, if_false]
  simp

lemma opChar_quote_false {c : Char} (h : isOpChar c = true) : isQuoteChar c = false := by
  simp only [isOpChar, Bool.or_eq_true, beq_iff_eq] at h
  rcases h with (h | h) | h <;> subst h <;> rfl

lemma opChar_head_bad {c : Char} (h : isOpChar c = true) :
    c.isDigit = false ∧ c ≠ 'v' ∧ isGoSpace c = false ∧ c ≠ '.' ∧ c ≠ '0' := by
  simp only [isOpChar, Bool.or_eq_true, beq_iff_eq] at h
  rcases h with (h | h) | h <;> subst h <;>
    exact ⟨rfl, by decide, rfl, by decide, by decide⟩

lemma parseDep_core_bare {N : List Char}
    (hNne : N ≠ [])
    (hNs : ∀ c ∈ N, isGoSpace c = false ∧ isOpChar c = false) :
    ParseDep ⟨N⟩ = .ok (⟨N⟩, ⟨"", ""⟩) := by
  obtain ⟨nc, nt, rfl⟩ : ∃ nc nt, N = nc :: nt := by
    rcases N with _ | ⟨nc, nt⟩
    · exact absurd rfl hNne
    · exact ⟨nc, nt, rfl⟩
  have hNchar : ∀ c ∈ nc :: nt, nameChar c = true :=
    fun c hc => nameChar_true (hNs c hc).1 (hNs c hc).2
  have hd : trimSpaceL (nc :: nt) = nc :: nt :=
    trimSpaceL_eq_self_of_no_space (fun c hc => (hNs c hc).1)
  have hdm : depMatch (nc :: nt) = some (nc :: nt, [], []) := by
    have ht1 : (nc :: nt).takeWhile nameChar = nc :: nt := takeWhile_eq_self hNchar
    have ht2 : (nc :: nt).dropWhile nameChar = [] := dropWhile_eq_nil hNchar
    simp only [depMatch, ht1, ht2, List.dropWhile_nil, matchOp, List.take_nil,
      List.isEmpty_cons, Bool.false_eq_true, if_false, List.contains, List.elem_nil]
    rfl
  rw [parseDep_run (s := ⟨nc :: nt⟩) hd (by rfl) hdm, hd]
  rfl

/-- C3: for a well-formed name (non-empty, no white space, none of `<>=`),
an operator in the allowed set, and a trimmed newline-free version whose
quote-stripped form parses as tolerant semver, `ParseDep` accepts both the
spaced and the no-space dependency forms, returning the name together with
the operator and the quote-stripped version; a bare name yields an empty
constraint; and the empty string, an operator without version, and a
version without operator are all rejected. -/
theorem parseDep_spec (name op ver : String) (w : SemVer)
    (hname : name.data ≠ [])
    (hchars : ∀ c ∈ name.data, isGoSpace c = false ∧ isOpChar c = false)
    (hop : op = ">=" ∨ op = "<=" ∨ op = ">" ∨ op = "<" ∨ op = "==")
    (htrim : trimSpaceL ver.data = ver.data)
    (hnl : '\n' ∉ ver.data)
    (hver : parseTolerantL (trimQuotes ver.data) = some w) :
    ParseDep (name ++ " " ++ op ++ " " ++ ver) = .ok (name, ⟨op, ⟨trimQuotes ver.data⟩⟩)
    ∧ ParseDep (name ++ op ++ ver) = .ok (name, ⟨op, ⟨trimQuotes ver.data⟩⟩)
    ∧ ParseDep name = .ok (name, ⟨"", ""⟩)
    ∧ ParseDep "" = .error .emptyDep
    ∧ ParseDep (name ++ " " ++ op ++ " ") = .error .opNoVersion
    ∧ ParseDep (name ++ " " ++ ver) = .error .versionNoOp := by
  obtain ⟨vc, vt, hV⟩ : ∃ vc vt, ver.data = vc :: vt := by
    rcases hvv : ver.data with _ | ⟨vc, vt⟩
    · rw [hvv] at hver
      rw [show trimQuotes [] = [] from rfl] at hver
      rw [show parseTolerantL [] = none from by decide] at hver
      cases hver
    · exact ⟨vc, vt, rfl⟩
  have hvc : isGoSpace vc = false := head_not_space_of_trimmed (hV ▸ htrim)
  have hvcop : isOpChar vc = false := by
    rw [Bool.eq_false_iff]
    intro hcon
    obtain ⟨t', ht'⟩ := trimQuotes_cons (t := vt) (opChar_quote_false hcon)
    rcases opChar_head_bad hcon with ⟨b1, b2, b3, b4, b5⟩
    have hbad : parseTolerantL (trimQuotes ver.data) = none := by
      rw [hV, ht']
      exact parseTolerantL_head_bad_none b1 b2 b3 b4 b5
    rw [hbad] at hver
    cases hver
  have hsp : (" " : String).data = [' '] := rfl
  have e1 : (name ++ " " ++ op ++ " " ++ ver) =
      (⟨name.data ++ ' ' :: (op.data ++ ' ' :: ver.data)⟩ : String) := by
    apply String.ext
    simp [String.data_append, hsp]
  have e2 : (name ++ op ++ ver) = (⟨name.data ++ (op.data ++ ver.data)⟩ : String) := by
    apply String.ext
    simp [String.data_append]
  have e5 : (name ++ " " ++ op ++ " ") =
      (⟨name.data ++ [' '] ++ op.data ++ [' ']⟩ : String) := by
    apply String.ext
    simp [String.data_append, hsp]
  have e6 : (name ++ " " ++ ver) = (⟨name.data ++ ' ' :: ver.data⟩ : String) := by
    apply String.ext
    simp [String.data_append, hsp]
  refine ⟨?_, ?_, parseDep_core_bare hname hchars, rfl, ?_, ?_⟩
  · rw [e1]
    rcases hop with rfl | rfl | rfl | rfl | rfl <;>
      exact parseDep_core_spaced hname hchars rfl (by decide) (by decide) rfl
        htrim hV hnl hver
  · rw [e2]
    rcases opChar_false_ne hvcop with ⟨hne1, hne2, hne3⟩
    rcases hop with rfl | rfl | rfl | rfl | rfl
    · exact parseDep_core_nospace hname hchars rfl (by decide) (by decide) rfl
        htrim hV hnl hver
    · exact parseDep_core_nospace hname hchars rfl (by decide) (by decide) rfl
        htrim hV hnl hver
    · refine parseDep_core_nospace hname hchars rfl (by decide) (by decide) ?_
        htrim hV hnl hver
      rw [hV]
      show matchOp ('>' :: vc :: vt) = (['>'], vc :: vt)
      rw [matchOp]
      rw [if_neg (by simp [hne3]), if_neg (by simp), if_pos (by simp)]
      rfl
    · refine parseDep_core_nospace hname hchars rfl (by decide) (by decide) ?_
        htrim hV hnl hver
      rw [hV]
      show matchOp ('<' :: vc :: vt) = (['<'], vc :: vt)
      rw [matchOp]
      rw [if_neg (by simp), if_neg (by simp [hne3]), if_neg (by simp), if_pos (by simp)]
      rfl
    · exact parseDep_core_nospace hname hchars rfl (by decide) (by decide) rfl
        htrim hV hnl hver
  · rw [e5]
    rcases hop with rfl | rfl | rfl | rfl | rfl <;>
      exact parseDep_core_opOnly hname hchars rfl (by decide) (by decide) rfl
  · rw [e6]
    exact parseDep_core_verOnly hname hchars htrim hV hvcop hnl

/-- C3 witness: a concrete run through `parseDep_spec`. -/
theorem parseDep_spec_witness :
    ParseDep "libfoo >= 1.2.3" = .ok ("libfoo", ⟨">=", "1.2.3"⟩)
      ∧ ParseDep "libfoo>=1.2.3" = .ok ("libfoo", ⟨">=", "1.2.3"⟩) := by
  have h := parseDep_spec "libfoo" ">=" "1.2.3" ⟨1, 2, 3, [], []⟩ (by decide) (by decide)
    (Or.inl rfl) (by decide) (by decide) (by decide)
  exact ⟨h.1, h.2.1⟩

/-! ## Package filenames (`GenPkgFileName` / `ParsePkgNameFromPath`) -/

/-- `common.GenPkgFileName` (src/unnamed/part_000 lines 140-142). -/
def GenPkgFileName (pkgName pkgVersion pkgArch pkgAPI : String) : String :=
  pkgName ++ "-" ++ pkgVersion ++ "-" ++ pkgArch ++ "-api" ++ pkgAPI ++ ".pkg"

/-- `path/filepath.Base` on Unix paths. -/
def filepathBase (l : List Char) : List Char :=
  if l = [] then ['.']
  else
    let l1 := (l.reverse.dropWhile (· == '/')).reverse
    let l2 := (l1.reverse.takeWhile (fun c => !(c == '/'))).reverse
    if l2 = [] then ['/'] else l2

/-- Scan of `path/filepath.Ext`: walk from the end of the path, stop at a
path separator, return the suffix from the last `.`. -/
def extScan (sfx : List Char) : List Char → List Char
  | [] => []
  | c :: t =>
    if c == '/' then []
    else if c == '.' then '.' :: sfx
    else extScan (c :: sfx) t

/-- `path/filepath.Ext`. -/
def filepathExt (l : List Char) : List Char :=
  extScan [] l.reverse

/-- Go `strings.TrimSuffix`. -/
def trimSuffixL (s sfx : List Char) : List Char :=
  if sfx.isSuffixOf s then s.take (s.length - sfx.length) else s

/-- Go `strings.TrimPrefix(_, "api")`. -/
def trimApiPfx : List Char → List Char
  | 'a' :: 'p' :: 'i' :: t => t
  | l => l

/-- The error of `common.ParsePkgNameFromPath`. -/
inductive PkgNameError where
  | invalidPkgName
deriving DecidableEq, Repr

/-- `common.ParsePkgNameFromPath` (src/unnamed/part_000 lines 148-162):
basename without extension, split on `-`, at least four tokens, the last
three being version, arch and `api`-prefixed API level. -/
def ParsePkgNameFromPath (path : String) :
    Except PkgNameError (String × String × String × String) :=
  let basename := filepathBase path.data
  let ext := filepathExt path.data
  let baseWithoutExt := trimSuffixL basename ext
  let tokens := splitAll '-' baseWithoutExt
  if tokens.length < 4 then .error .invalidPkgName
  else
    match tokens.reverse with
    | apiTok :: archTok :: verTok :: restRev =>
      .ok (⟨joinSep '-' restRev.reverse⟩, ⟨verTok⟩, ⟨archTok⟩, ⟨trimApiPfx apiTok⟩)
    | _ => .error .invalidPkgName

/-! ### Split/join lemmas -/

lemma splitAllGo_ne_nil (sep : Char) (cur l : List Char) : splitAllGo sep cur l ≠ [] := by
  induction l generalizing cur with
  | nil => simp [splitAllGo]
  | cons c t ih =>
    rw [splitAllGo]
    by_cases hc : (c == sep) = true
    · rw [if_pos hc]
      simp
    · rw [if_neg hc]
      exact ih _

lemma splitAllGo_append_sep (sep : Char) (a b : List Char) :
    ∀ cur, splitAllGo sep cur (a ++ sep :: b) = splitAllGo sep cur a ++ splitAll sep b := by
  induction a with
  | nil =>
    intro cur
    simp [splitAllGo, splitAll]
  | cons x a' ih =>
    intro cur
    by_cases hx : (x == sep) = true
    · simp only [List.cons_append, splitAllGo, if_pos hx]
      exact congrArg (List.cons cur.reverse) (ih [])
    · simp only [List.cons_append, splitAllGo, if_neg hx]
      exact ih (x :: cur)

lemma splitAll_append_sep (sep : Char) (a b : List Char) :
    splitAll sep (a ++ sep :: b) = splitAll sep a ++ splitAll sep b :=
  splitAllGo_append_sep sep a b []

lemma splitAllGo_no_sep {sep : Char} {a : List Char} (h : sep ∉ a) :
    ∀ cur, splitAllGo sep cur a = [cur.reverse ++ a] := by
  induction a with
  | nil => intro cur; simp [splitAllGo]
  | cons x a' ih =>
    intro cur
    have hx : (x == sep) = false := by
      simp only [beq_eq_false_iff_ne]
      rintro rfl
      exact h (List.mem_cons_self x a')
    rw [splitAllGo, if_neg (by simp [hx]), ih (fun hm => h (List.mem_cons_of_mem _ hm))]
    simp

lemma splitAll_no_sep {sep : Char} {a : List Char} (h : sep ∉ a) :
    splitAll sep a = [a] := by
  simpa using splitAllGo_no_sep h []

lemma joinSep_splitAllGo (sep : Char) (l : List Char) :
    ∀ cur, joinSep sep (splitAllGo sep cur l) = cur.reverse ++ l := by
  induction l with
  | nil => intro cur; simp [splitAllGo, joinSep]
  | cons c t ih =>
    intro cur
    by_cases hc : (c == sep) = true
    · obtain ⟨y, ys, hy⟩ : ∃ y ys, splitAllGo sep [] t = y :: ys := by
        rcases hs : splitAllGo sep [] t with _ | ⟨y, ys⟩
        · exact absurd hs (splitAllGo_ne_nil sep [] t)
        · exact ⟨y, ys, rfl⟩
      rw [splitAllGo, if_pos hc, hy, joinSep, ← hy, ih]
      have hcs : c = sep := beq_iff_eq.mp hc
      simp [hcs]
    · rw [splitAllGo, if_neg hc, ih]
      simp

lemma joinSep_splitAll (sep : Char) (l : List Char) :
    joinSep sep (splitAll sep l) = l := by
  simpa using joinSep_splitAllGo sep l []

lemma splitAll_ne_nil (sep : Char) (l : List Char) : splitAll sep l ≠ [] :=
  splitAllGo_ne_nil sep [] l

lemma filepathBase_no_slash {l : List Char} (h : '/' ∉ l) (hne : l ≠ []) :
    filepathBase l = l := by
  rw [filepathBase, if_neg hne]
  have hall : ∀ c ∈ l.reverse, c ≠ '/' := by
    intro c hc he
    exact h (he ▸ List.mem_reverse.mp hc)
  have h1 : l.reverse.dropWhile (· == '/') = l.reverse := by
    rcases hr : l.reverse with _ | ⟨c, t⟩
    · rfl
    · refine dropWhile_cons_false ?_
      simp only [beq_eq_false_iff_ne]
      exact hall c (by rw [hr]; simp)
  have h2 : l.reverse.takeWhile (fun c => !(c == '/')) = l.reverse := by
    refine takeWhile_eq_self ?_
    intro c hc
    have hcc := hall c hc
    simp [hcc]
  simp only [h1, List.reverse_reverse, h2]
  rw [if_neg hne]

lemma filepathExt_pkg (G : List Char) : filepathExt (G ++ ".pkg".data) = ".pkg".data := by
  rw [filepathExt, List.reverse_append]
  show extScan [] ('g' :: 'k' :: 'p' :: '.' :: G.reverse) = ".pkg".data
  rw [extScan, if_neg (by decide), if_neg (by decide),
    extScan, if_neg (by decide), if_neg (by decide),
    extScan, if_neg (by decide), if_neg (by decide),
    extScan, if_neg (by decide), if_pos (by decide)]

lemma trimSuffixL_append (x sfx : List Char) : trimSuffixL (x ++ sfx) sfx = x := by
  rw [trimSuffixL, if_pos]
  · rw [List.length_append]
    simp [List.take_left]
  · have hsfx : sfx <:+ x ++ sfx := List.suffix_append x sfx
    exact List.isSuffixOf_iff_suffix.mpr hsfx

lemma exists_cons3_of_length {α : Type} {L : List α} (h : 3 ≤ L.length) :
    ∃ a b c r, L = a :: b :: c :: r := by
  rcases L with _ | ⟨a, t1⟩
  · simp at h
  · rcases t1 with _ | ⟨b, t2⟩
    · simp at h
    · rcases t2 with _ | ⟨c, t3⟩
      · simp at h
      · exact ⟨a, b, c, t3, rfl⟩

/-- C5: `ParsePkgNameFromPath` takes the basename without extension,
splits on `-`, errors exactly when fewer than four tokens result, and
otherwise reads the last three tokens as version, arch and `api`-prefixed
API level, joining everything before them with `-` as the name. -/
theorem parsePkgName_spec (path : String) :
    ((splitAll '-' (trimSuffixL (filepathBase path.data) (filepathExt path.data))).length < 4 →
      ParsePkgNameFromPath path = .error .invalidPkgName)
    ∧ (4 ≤ (splitAll '-' (trimSuffixL (filepathBase path.data) (filepathExt path.data))).length →
      ∃ front verTok archTok apiTok,
        splitAll '-' (trimSuffixL (filepathBase path.data) (filepathExt path.data)) =
          front ++ [verTok, archTok, apiTok] ∧
        ParsePkgNameFromPath path =
          .ok (⟨joinSep '-' front⟩, ⟨verTok⟩, ⟨archTok⟩, ⟨trimApiPfx apiTok⟩)) := by
  constructor
  · intro h
    rw [ParsePkgNameFromPath, if_pos h]
  · intro h
    obtain ⟨a, b, c, r, hrev⟩ :=
      exists_cons3_of_length
        (L := (splitAll '-' (trimSuffixL (filepathBase path.data) (filepathExt path.data))).reverse)
        (by simp only [List.length_reverse]; omega)
    have htd : splitAll '-' (trimSuffixL (filepathBase path.data) (filepathExt path.data)) =
        r.reverse ++ [c, b, a] := by
      have h2 := congrArg List.reverse hrev
      simpa using h2
    refine ⟨r.reverse, c, b, a, htd, ?_⟩
    rw [ParsePkgNameFromPath, if_neg (by omega), hrev]

/-- C5 witness: concrete runs through both sides of `parsePkgName_spec`. -/
theorem parsePkgName_spec_witness :
    ParsePkgNameFromPath "libfoo-1.2.pkg" = .error .invalidPkgName ∧
    (∃ front verTok archTok apiTok,
      splitAll '-' (trimSuffixL (filepathBase ("libfoo-1.2.3-aarch64-api15.pkg" : String).data)
          (filepathExt ("libfoo-1.2.3-aarch64-api15.pkg" : String).data)) =
        front ++ [verTok, archTok, apiTok] ∧
      ParsePkgNameFromPath "libfoo-1.2.3-aarch64-api15.pkg" =
        .ok (⟨joinSep '-' front⟩, ⟨verTok⟩, ⟨archTok⟩, ⟨trimApiPfx apiTok⟩)) :=
  ⟨(parsePkgName_spec "libfoo-1.2.pkg").1 (by decide),
   (parsePkgName_spec "libfoo-1.2.3-aarch64-api15.pkg").2 (by decide)⟩

/-- C4 counterexample: a package name containing `/` breaks the
generate/parse round trip (the parser takes the basename first), so the
claim fails as stated for the fingerprint `("a/b", "1", "x", "5")`. -/
theorem genParse_roundtrip_counterexample :
    ParsePkgNameFromPath (GenPkgFileName "a/b" "1" "x" "5") ≠
      .ok ("a/b", "1", "x", "5") := by
  intro h
  have h2 : ParsePkgNameFromPath (GenPkgFileName "a/b" "1" "x" "5") =
      .ok ("b", "1", "x", "5") := rfl
  rw [h2] at h
  simp at h

/-- C4 (amended): for fingerprints whose version, arch and API contain
no `-` and whose four fields contain no `/`, generating the package
filename and parsing it back recovers the tuple exactly. -/
theorem genParse_roundtrip (n v a api : String)
    (hn : '/' ∉ n.data)
    (hv : '-' ∉ v.data) (hv2 : '/' ∉ v.data)
    (ha : '-' ∉ a.data) (ha2 : '/' ∉ a.data)
    (hapi : '-' ∉ api.data) (hapi2 : '/' ∉ api.data) :
    ParsePkgNameFromPath (GenPkgFileName n v a api) = .ok (n, v, a, api) := by
  set T : List Char := 'a' :: 'p' :: 'i' :: api.data with hT
  set G : List Char := n.data ++ '-' :: (v.data ++ '-' :: (a.data ++ '-' :: T)) with hG
  have hF : (GenPkgFileName n v a api).data = G ++ ".pkg".data := by
    show (n ++ "-" ++ v ++ "-" ++ a ++ "-api" ++ api ++ ".pkg").data = _
    simp only [String.data_append, hG, hT]
    simp [show ("-" : String).data = ['-'] from rfl,
      show ("-api" : String).data = ['-', 'a', 'p', 'i'] from rfl,
      show (".pkg" : String).data = ['.', 'p', 'k', 'g'] from rfl]
  have hGs : '/' ∉ G := by
    rw [hG, hT]
    intro hm
    simp at hm
    tauto
  have hslash : '/' ∉ (GenPkgFileName n v a api).data := by
    rw [hF]
    intro hm
    rcases List.mem_append.mp hm with hm | hm
    · exact hGs hm
    · simp at hm
  have hne : (GenPkgFileName n v a api).data ≠ [] := by
    rw [hF]
    simp
  have hbase : filepathBase (GenPkgFileName n v a api).data =
      (GenPkgFileName n v a api).data :=
    filepathBase_no_slash hslash hne
  have hext : filepathExt (GenPkgFileName n v a api).data = ".pkg".data := by
    rw [hF]
    exact filepathExt_pkg G
  have hbwe : trimSuffixL (GenPkgFileName n v a api).data ".pkg".data = G := by
    rw [hF]
    exact trimSuffixL_append G ".pkg".data
  have hTnm : ('-' : Char) ∉ T := by
    rw [hT]
    intro hm
    simp at hm
    exact hapi hm
  have htoks : splitAll '-' G = splitAll '-' n.data ++ [v.data, a.data, T] := by
    rw [hG, splitAll_append_sep, splitAll_append_sep, splitAll_append_sep,
      splitAll_no_sep hv, splitAll_no_sep ha, splitAll_no_sep hTnm]
    simp
  obtain ⟨t0, ts, hsplit⟩ : ∃ t0 ts, splitAll '-' n.data = t0 :: ts := by
    rcases hs : splitAll '-' n.data with _ | ⟨t0, ts⟩
    · exact absurd hs (splitAll_ne_nil '-' n.data)
    · exact ⟨t0, ts, rfl⟩
  rw [ParsePkgNameFromPath, hbase, hext, hbwe, htoks]
  rw [if_neg (by rw [hsplit]; simp)]
  have hrev : (splitAll '-' n.data ++ [v.data, a.data, T]).reverse =
      T :: a.data :: v.data :: (splitAll '-' n.data).reverse := by
    simp
  rw [hrev]
  simp only [List.reverse_reverse, joinSep_splitAll, hT]
  rfl

/-- C4 witness: the amended round trip on a name containing `-`. -/
theorem genParse_roundtrip_witness :
    ParsePkgNameFromPath (GenPkgFileName "my-lib" "1.2.3" "aarch64" "15") =
      .ok ("my-lib", "1.2.3", "aarch64", "15") :=
  genParse_roundtrip "my-lib" "1.2.3" "aarch64" "15" (by decide) (by decide) (by decide)
    (by decide) (by decide) (by decide) (by decide)

/-! ## Topological build ordering (`internal/pkgclient/topo_sort.go`)

Go maps are embedded as association data with a deterministic iteration
order (the insertion order of `packages`); the claims proved below hold
for any iteration order. -/

/-- `meta.PackageInfo`. -/
structure PackageInfo where
  name : String
  version : String
  depends : List String
  buildDepends : List String
deriving DecidableEq, Repr

/-- Modelled from the spec: `common.NormalizeDependency` is not among the
provided sources (only its callers are). Per §4.6 it normalizes a
dependency string to its bare name: trim, then strip the constraint
suffix, the name terminating at white space or an operator character
(§3's dependency-string grammar). -/
def NormalizeDependency (dep : String) : String :=
  ⟨(trimSpaceL dep.data).takeWhile nameChar⟩

/-- The per-package normalized in-set dependency list (`allDeps` filtered
to the package set, deduplicated as the Go `map[string]bool` does). -/
def normDeps (names : List String) (pkg : PackageInfo) : List String :=
  (((pkg.depends ++ pkg.buildDepends).map NormalizeDependency).dedup).filter
    (fun d => d ∈ names)

/-- One round of Kahn's algorithm: decrement the in-degree of every
package that depends on `current`, enqueueing those that reach zero. -/
def kahnStep (names : List String) (depsOf : String → List String) (current : String)
    (deg : String → Int) : (String → Int) × List String :=
  names.foldl
    (fun acc n =>
      if current ∈ depsOf n then
        let d := acc.1 n - 1
        let acc1 := fun m => if m = n then d else acc.1 m
        if d = 0 then (acc1, acc.2 ++ [n]) else (acc1, acc.2)
      else acc)
    (deg, [])

/-- The Kahn main loop, with explicit fuel (proved sufficient below). -/
def kahnLoop (names : List String) (depsOf : String → List String) :
    Nat → (String → Int) → List String → List String → Option (List String)
  | 0, _, _, _ => none
  | fuel + 1, deg, queue, result =>
    match queue with
    | [] => some result
    | current :: rest =>
      let s := kahnStep names depsOf current deg
      kahnLoop names depsOf fuel s.1 (rest ++ s.2) (result ++ [current])

/-- Errors of `TopologicalSort` (the cycle diagnostic text is collapsed). -/
inductive TopoError where
  | duplicatePackage
  | cycleDetected
deriving DecidableEq, Repr

/-- The per-package dependency lookup of the build graph (`graph[name].Dependencies`). -/
def depsOfFun (packages : List PackageInfo) (n : String) : List String :=
  match packages.find? (fun p => p.name == n) with
  | none => []
  | some p => normDeps (packages.map (·.name)) p

/-- `pkgclient.TopologicalSort` (src/internal/pkgclient/topo_sort.go
lines 19-102). -/
def TopologicalSort (packages : List PackageInfo) : Except TopoError (List String) :=
  let names := packages.map (·.name)
  if names.Nodup then
    let deg0 : String → Int := fun n => ((depsOfFun packages n).length : Int)
    let queue0 := names.filter (fun n => deg0 n = 0)
    match kahnLoop names (depsOfFun packages) (2 * names.length + 1) deg0 queue0 [] with
    | none => .error .cycleDetected
    | some result =>
      if result.length ≠ packages.length then .error .cycleDetected
      else .ok result
  else .error .duplicatePackage

/-- The normalized in-set dependency edge: `u` depends on `v`. -/
def depEdge (packages : List PackageInfo) (u v : String) : Prop :=
  ∃ p ∈ packages, p.name = u ∧ v ∈ normDeps (packages.map (·.name)) p

/-- Acyclicity of the normalized in-set dependency graph. -/
def AcyclicDeps (packages : List PackageInfo) : Prop :=
  ∀ n, ¬ Relation.TransGen (depEdge packages) n n

/-! ### Kahn loop invariants -/

lemma countP_split {α : Type} (l : List α) (A B C : α → Bool)
    (h : ∀ a ∈ l, B a = (A a || C a)) (hd : ∀ a ∈ l, ¬(A a = true ∧ C a = true)) :
    l.countP B = l.countP A + l.countP C := by
  induction l with
  | nil => rfl
  | cons x t ih =>
    rw [List.countP_cons, List.countP_cons, List.countP_cons,
      ih (fun a ha => h a (by simp [ha])) (fun a ha => hd a (by simp [ha]))]
    have hx := h x (by simp)
    have hdx := hd x (by simp)
    rcases hA : A x <;> rcases hC : C x <;> simp [hA, hC] at hx hdx ⊢ <;> simp [hx] <;> omega

lemma kahnStep_fold (depsOf : String → List String) (current : String) (deg : String → Int) :
    ∀ (l : List String), l.Nodup → ∀ (g : String → Int) (q0 : List String),
      (∀ n ∈ l, g n = deg n) →
      l.foldl
        (fun acc n =>
          if current ∈ depsOf n then
            let d := acc.1 n - 1
            let acc1 := fun m => if m = n then d else acc.1 m
            if d = 0 then (acc1, acc.2 ++ [n]) else (acc1, acc.2)
          else acc)
        (g, q0) =
      ((fun m => if m ∈ l ∧ current ∈ depsOf m then deg m - 1 else g m),
        q0 ++ l.filter (fun n => decide (current ∈ depsOf n) && decide (deg n = 1))) := by
  intro l
  induction l with
  | nil =>
    intro _ g q0 _
    refine Prod.ext ?_ ?_
    · funext m
      simp
    · simp
  | cons n ns ih =>
    intro hnd g q0 hag
    have hnns : n ∉ ns := (List.nodup_cons.mp hnd).1
    have hgn : g n = deg n := hag n (by simp)
    rw [List.foldl_cons]
    by_cases hdep : current ∈ depsOf n
    · rw [if_pos hdep]
      by_cases hd0 : g n - 1 = 0
      · rw [if_pos hd0]
        have hdeg1 : deg n = 1 := by omega
        rw [ih (List.nodup_cons.mp hnd).2 _ _
          (fun m hm => by
            simp only []
            rw [if_neg (fun (he : m = n) => hnns (he ▸ hm))]
            exact hag m (by simp [hm]))]
        refine Prod.ext ?_ ?_
        · funext m
          by_cases hmn : m = n
          · subst hmn
            simp [hnns, hdep, hgn]
          · by_cases hmem : m ∈ ns <;> by_cases hdm : current ∈ depsOf m <;>
              simp [hmn, hmem, hdm]
        · simp only [List.filter_cons]
          rw [if_pos (by simp [hdep, hdeg1])]
          simp
      · rw [if_neg hd0]
        have hdeg1 : ¬ deg n = 1 := by omega
        rw [ih (List.nodup_cons.mp hnd).2 _ _
          (fun m hm => by
            simp only []
            rw [if_neg (fun (he : m = n) => hnns (he ▸ hm))]
            exact hag m (by simp [hm]))]
        refine Prod.ext ?_ ?_
        · funext m
          by_cases hmn : m = n
          · subst hmn
            simp [hnns, hdep, hgn]
          · by_cases hmem : m ∈ ns <;> by_cases hdm : current ∈ depsOf m <;>
              simp [hmn, hmem, hdm]
        · simp only [List.filter_cons]
          rw [if_neg (by simp [hdeg1])]
    · rw [if_neg hdep]
      rw [ih (List.nodup_cons.mp hnd).2 g q0 (fun m hm => hag m (by simp [hm]))]
      refine Prod.ext ?_ ?_
      · funext m
        by_cases hmn : m = n
        · subst hmn
          simp [hdep]
        · by_cases hmem : m ∈ ns <;> by_cases hdm : current ∈ depsOf m <;>
            simp [hmn, hmem, hdm]
      · simp only [List.filter_cons]
        rw [if_neg (by simp [hdep])]

lemma kahnStep_eq {names : List String} (depsOf : String → List String)
    (hnd : names.Nodup) (current : String) (deg : String → Int) :
    kahnStep names depsOf current deg =
      ((fun m => if m ∈ names ∧ current ∈ depsOf m then deg m - 1 else deg m),
       names.filter (fun n => decide (current ∈ depsOf n) && decide (deg n = 1))) := by
  have h := kahnStep_fold depsOf current deg names hnd deg [] (fun _ _ => rfl)
  rw [kahnStep, h]
  simp

/-- The Kahn loop invariant: the result and queue are disjoint and
duplicate-free subsets of `names`, each in-degree counts the not yet
emitted dependencies, every zero-degree node is scheduled, queued nodes
have all dependencies emitted, and emitted nodes follow all of theirs. -/
def kahnInv (names : List String) (depsOf : String → List String)
    (deg : String → Int) (queue result : List String) : Prop :=
  (result ++ queue).Nodup ∧
  (∀ n ∈ queue, n ∈ names) ∧
  (∀ n ∈ result, n ∈ names) ∧
  (∀ n ∈ names, deg n = ((depsOf n).countP (fun d => decide (d ∉ result)) : Int)) ∧
  (∀ n ∈ names, deg n = 0 → n ∈ result ∨ n ∈ queue) ∧
  (∀ n ∈ queue, ∀ v ∈ depsOf n, v ∈ result) ∧
  (∀ u ∈ result, ∀ v ∈ depsOf u, List.Sublist [v, u] result)

lemma kahnLoop_run (names : List String) (depsOf : String → List String)
    (hnames : names.Nodup)
    (hdepsub : ∀ n v, v ∈ depsOf n → v ∈ names)
    (hdepnd : ∀ n, (depsOf n).Nodup) :
    ∀ fuel (deg : String → Int) (queue result : List String),
      kahnInv names depsOf deg queue result →
      queue.length + names.countP (fun n => decide (1 ≤ deg n)) < fuel →
      ∃ out, kahnLoop names depsOf fuel deg queue result = some out ∧
        out.Nodup ∧ (∀ n ∈ out, n ∈ names) ∧
        (∀ u ∈ out, ∀ v ∈ depsOf u, List.Sublist [v, u] out) ∧
        (∀ n ∈ names, n ∉ out → ∃ v, v ∈ depsOf n ∧ v ∉ out) := by
  intro fuel
  induction fuel with
  | zero =>
    intro deg queue result _ hm
    omega
  | succ fuel ih =>
    intro deg queue result hinv hm
    obtain ⟨hnd, hqn, hrn, hdeg, hzero, hqdeps, horder⟩ := hinv
    rcases queue with _ | ⟨current, rest⟩
    · refine ⟨result, rfl, by simpa using hnd, hrn, horder, ?_⟩
      intro n hn hnr
      by_contra hcon
      push_neg at hcon
      have hall : ∀ v ∈ depsOf n, ¬ (v ∉ result) := by
        intro v hv
        simp only [not_not]
        exact hcon v hv
      have hz : deg n = 0 := by
        rw [hdeg n hn]
        have hcnt0 : (depsOf n).countP (fun d => decide (d ∉ result)) = 0 :=
          List.countP_eq_zero.mpr (by simpa using hall)
        rw [hcnt0]
        rfl
      rcases hzero n hn hz with h | h
      · exact hnr h
      · simp at h
    · -- one loop iteration
      have hcurn : current ∈ names := hqn current (by simp)
      have hstep := kahnStep_eq depsOf hnames current deg
      set deg2 : String → Int :=
        fun m => if m ∈ names ∧ current ∈ depsOf m then deg m - 1 else deg m with hdeg2
      set newQ : List String :=
        names.filter (fun n => decide (current ∈ depsOf n) && decide (deg n = 1)) with hnewQ
      -- degrees of queued nodes are zero
      have hdegq : ∀ n ∈ current :: rest, deg n = 0 := by
        intro n hn
        rw [hdeg n (hqn n hn)]
        have hcnt0 : (depsOf n).countP (fun d => decide (d ∉ result)) = 0 :=
          List.countP_eq_zero.mpr (by
            intro v hv
            simp only [decide_eq_true_eq, not_not]
            exact hqdeps n hn v hv)
        rw [hcnt0]
        rfl
      have hnewQmem : ∀ x, x ∈ newQ ↔ x ∈ names ∧ current ∈ depsOf x ∧ deg x = 1 := by
        intro x
        rw [hnewQ]
        simp [List.mem_filter, and_assoc]
      have hres_deg : ∀ x ∈ result, deg x = 0 := by
        intro x hx
        rw [hdeg x (hrn x hx)]
        have hcnt0 : (depsOf x).countP (fun d => decide (d ∉ result)) = 0 :=
          List.countP_eq_zero.mpr (by
            intro v hv
            simp only [decide_eq_true_eq, not_not]
            exact List.singleton_sublist.mp
              (List.Sublist.trans (by simp) (horder x hx v hv)))
        rw [hcnt0]
        rfl
      have hnewQ_not_res : ∀ x ∈ newQ, x ∉ result := by
        intro x hx hxr
        have h1 := (hnewQmem x).mp hx
        have h0 := hres_deg x hxr
        omega
      have hnewQ_not_q : ∀ x ∈ newQ, x ∉ current :: rest := by
        intro x hx hxq
        have h1 := (hnewQmem x).mp hx
        have h0 := hdegq x hxq
        omega
      have hnewQnd : newQ.Nodup := by
        rw [hnewQ]
        exact hnames.filter _
      -- the new invariant
      have hnd' : ((result ++ [current]) ++ (rest ++ newQ)).Nodup := by
        have hshape : (result ++ [current]) ++ (rest ++ newQ) =
            (result ++ current :: rest) ++ newQ := by simp
        rw [hshape, List.nodup_append]
        refine ⟨hnd, hnewQnd, ?_⟩
        intro a ha hanew
        rcases List.mem_append.mp ha with h | h
        · exact hnewQ_not_res a hanew h
        · exact hnewQ_not_q a hanew h
      have hcur_not_res : current ∉ result := by
        intro hc
        rw [List.nodup_append] at hnd
        exact hnd.2.2 hc (by simp)
      have hdeg' : ∀ n ∈ names,
          deg2 n = (((depsOf n).countP (fun d => decide (d ∉ result ++ [current]))) : Int) := by
        intro n hn
        by_cases hdp : current ∈ depsOf n
        · have hsplit := countP_split (depsOf n)
            (fun d => decide (d ∉ result ++ [current]))
            (fun d => decide (d ∉ result))
            (fun d => d == current)
            (by
              intro d hd
              by_cases hdc : d = current
              · subst hdc
                simp [hcur_not_res]
              · simp [hdc])
            (by
              intro d hd
              simp only [decide_eq_true_eq, beq_iff_eq, not_and]
              rintro hd2 rfl
              exact hd2 (by simp))
          have hcnt : (depsOf n).countP (fun d => d == current) = 1 := by
            have h1 : (depsOf n).count current ≤ 1 :=
              List.nodup_iff_count_le_one.mp (hdepnd n) current
            have h2 : 0 < (depsOf n).count current := List.count_pos_iff.mpr hdp
            have : (depsOf n).count current = 1 := by omega
            exact this
          rw [hdeg2]
          simp only [if_pos (And.intro hn hdp)]
          rw [hdeg n hn]
          omega
        · rw [hdeg2]
          simp only [hn, hdp, and_false, if_false]
          rw [hdeg n hn]
          have : (depsOf n).countP (fun d => decide (d ∉ result ++ [current])) =
              (depsOf n).countP (fun d => decide (d ∉ result)) := by
            refine List.countP_congr ?_
            intro d hd
            have hdc : d ≠ current := fun he => hdp (he ▸ hd)
            simp [hdc]
          omega
      have hzero' : ∀ n ∈ names, deg2 n = 0 →
          n ∈ result ++ [current] ∨ n ∈ rest ++ newQ := by
        intro n hn h0
        by_cases hdp : current ∈ depsOf n
        · rw [hdeg2] at h0
          simp only [if_pos (And.intro hn hdp)] at h0
          have : deg n = 1 := by omega
          right
          refine List.mem_append.mpr (Or.inr ?_)
          exact (hnewQmem n).mpr ⟨hn, hdp, this⟩
        · rw [hdeg2] at h0
          simp only [hn, hdp, and_false, if_false] at h0
          rcases hzero n hn h0 with h | h
          · exact Or.inl (by simp [h])
          · rcases List.mem_cons.mp h with rfl | h
            · exact Or.inl (by simp)
            · exact Or.inr (by simp [h])
      have hqdeps' : ∀ n ∈ rest ++ newQ, ∀ v ∈ depsOf n, v ∈ result ++ [current] := by
        intro n hn v hv
        rcases List.mem_append.mp hn with h | h
        · exact List.mem_append.mpr (Or.inl (hqdeps n (by simp [h]) v hv))
        · have hdz : deg2 n = 0 := by
            have h1 := (hnewQmem n).mp h
            rw [hdeg2]
            simp only [if_pos (And.intro h1.1 h1.2.1)]
            omega
          have := hdeg' n ((hnewQmem n).mp h).1
          rw [hdz] at this
          have hcnt0 : (depsOf n).countP (fun d => decide (d ∉ result ++ [current])) = 0 := by
            omega
          have hnp := List.countP_eq_zero.mp hcnt0 v hv
          simp only [decide_eq_true_eq] at hnp
          exact of_not_not hnp
      have horder' : ∀ u ∈ result ++ [current], ∀ v ∈ depsOf u,
          List.Sublist [v, u] (result ++ [current]) := by
        intro u hu v hv
        rcases List.mem_append.mp hu with h | h
        · exact List.Sublist.trans (horder u h v hv) (List.sublist_append_left result [current])
        · rcases List.mem_singleton.mp h with rfl
          have hvres : v ∈ result := hqdeps u (by simp) v hv
          have h1 : List.Sublist [v] result := List.singleton_sublist.mpr hvres
          simpa using List.Sublist.append h1 (List.Sublist.refl [u])
      -- measure decrease
      have hcount : names.countP (fun n => decide (1 ≤ deg n)) =
          names.countP (fun n => decide (1 ≤ deg2 n)) + newQ.length := by
        have hlen : newQ.length =
            names.countP (fun n => decide (current ∈ depsOf n) && decide (deg n = 1)) := by
          rw [hnewQ, ← List.countP_eq_length_filter]
        rw [hlen]
        refine countP_split names _ _ _ ?_ ?_
        · intro n hn
          rw [hdeg2]
          by_cases hdp : current ∈ depsOf n
          · simp only [if_pos (And.intro hn hdp), hdp, decide_True, Bool.true_and]
            by_cases h1 : deg n = 1
            · simp [h1]
            · by_cases h2 : 1 ≤ deg n
              · have : 1 ≤ deg n - 1 := by omega
                simp [h1, h2, this, hn]
              · have : ¬ 1 ≤ deg n - 1 := by omega
                simp [h1, h2, this, hn]
          · simp [hn, hdp]
        · intro n hn
          rw [hdeg2]
          by_cases hdp : current ∈ depsOf n
          · simp only [if_pos (And.intro hn hdp), decide_eq_true_eq, Bool.and_eq_true,
              not_and]
            intro h1 h2
            omega
          · simp [hn, hdp]
      have hstepinv : kahnInv names depsOf deg2 (rest ++ newQ) (result ++ [current]) := by
        refine ⟨hnd', ?_, ?_, hdeg', hzero', hqdeps', horder'⟩
        · intro n hn
          rcases List.mem_append.mp hn with h | h
          · exact hqn n (by simp [h])
          · exact ((hnewQmem n).mp h).1
        · intro n hn
          rcases List.mem_append.mp hn with h | h
          · exact hrn n h
          · rcases List.mem_singleton.mp h with rfl
            exact hcurn
      have hmeas : (rest ++ newQ).length +
          names.countP (fun n => decide (1 ≤ deg2 n)) < fuel := by
        rw [List.length_append]
        simp only [List.length_cons] at hm
        omega
      obtain ⟨out, hout, h1, h2, h3, h4⟩ := ih deg2 (rest ++ newQ) (result ++ [current])
        hstepinv hmeas
      refine ⟨out, ?_, h1, h2, h3, h4⟩
      rw [kahnLoop]
      simp only [hstep]
      exact hout

lemma find?_name_eq {packages : List PackageInfo}
    (hnd : (packages.map (·.name)).Nodup) {p : PackageInfo} (hp : p ∈ packages) :
    packages.find? (fun q => q.name == p.name) = some p := by
  induction packages with
  | nil => cases hp
  | cons q t ih =>
    rcases List.mem_cons.mp hp with rfl | hp'
    · simp [List.find?_cons]
    · have hq : q.name ≠ p.name := by
        intro he
        have hmem : p.name ∈ t.map (·.name) := List.mem_map.mpr ⟨p, hp', rfl⟩
        simp only [List.map_cons, List.nodup_cons] at hnd
        exact hnd.1 (he ▸ hmem)
      have hbeq : (q.name == p.name) = false := beq_eq_false_iff_ne.mpr hq
      rw [List.find?_cons, hbeq]
      exact ih (by simp only [List.map_cons, List.nodup_cons] at hnd; exact hnd.2) hp'

lemma depsOfFun_sub (packages : List PackageInfo) (n v : String)
    (h : v ∈ depsOfFun packages n) : v ∈ packages.map (·.name) := by
  rw [depsOfFun] at h
  rcases hf : packages.find? (fun p => p.name == n) with _ | p <;> rw [hf] at h
  · cases h
  · simpa using (List.mem_filter.mp h).2

lemma depsOfFun_nodup (packages : List PackageInfo) (n : String) :
    (depsOfFun packages n).Nodup := by
  rw [depsOfFun]
  rcases hf : packages.find? (fun p => p.name == n) with _ | p
  · simp only [hf]
    exact List.nodup_nil
  · simp only [hf]
    exact List.Nodup.filter _ (List.nodup_dedup _)

lemma depEdge_iff {packages : List PackageInfo}
    (hnd : (packages.map (·.name)).Nodup) (u v : String) :
    depEdge packages u v ↔ v ∈ depsOfFun packages u := by
  constructor
  · rintro ⟨p, hp, rfl, hv⟩
    rw [depsOfFun, find?_name_eq hnd hp]
    exact hv
  · intro hv
    rw [depsOfFun] at hv
    rcases hf : packages.find? (fun p => p.name == u) with _ | p <;> rw [hf] at hv
    · cases hv
    · refine ⟨p, List.mem_of_find?_eq_some hf, ?_, hv⟩
      simpa using List.find?_some hf

lemma acyclic_of_rank {R : String → String → Prop} (rank : String → Nat)
    (h : ∀ u v, R u v → rank v < rank u) : ∀ n, ¬ Relation.TransGen R n n := by
  intro n hn
  have hlt : ∀ a b, Relation.TransGen R a b → rank b < rank a := by
    intro a b hab
    induction hab with
    | single h1 => exact h _ _ h1
    | tail _ h1 ihp => exact lt_trans (h _ _ h1) ihp
  exact lt_irrefl _ (hlt n n hn)

lemma sublist_pair_indexOf (v u : String) :
    ∀ (l : List String), l.Nodup → List.Sublist [v, u] l →
      l.indexOf v < l.indexOf u := by
  intro l
  induction l with
  | nil => intro _ h; simp at h
  | cons x t ih =>
    intro hnd hs
    cases hs with
    | cons _ hs =>
      have hv : v ∈ t := hs.subset (by simp)
      have hu : u ∈ t := hs.subset (by simp)
      have hxv : x ≠ v := fun he => (List.nodup_cons.mp hnd).1 (he ▸ hv)
      have hxu : x ≠ u := fun he => (List.nodup_cons.mp hnd).1 (he ▸ hu)
      rw [List.indexOf_cons_ne t hxv, List.indexOf_cons_ne t hxu]
      exact Nat.succ_lt_succ (ih (List.nodup_cons.mp hnd).2 hs)
    | cons₂ _ hs =>
      have hu : u ∈ t := hs.subset (by simp)
      have hvu : v ≠ u := fun he => (List.nodup_cons.mp hnd).1 (he ▸ hu)
      rw [List.indexOf_cons_self, List.indexOf_cons_ne t hvu]
      omega

lemma cycle_of_stuck {R : String → String → Prop} (names bad : List String)
    (hne : bad ≠ [])
    (hsub : ∀ n ∈ bad, n ∈ names)
    (hstep : ∀ n ∈ bad, ∃ v, v ∈ bad ∧ R n v) :
    ∃ n, Relation.TransGen R n n := by
  classical
  have hF : ∀ n, ∃ v, n ∈ bad → v ∈ bad ∧ R n v := by
    intro n
    by_cases hn : n ∈ bad
    · obtain ⟨v, hv⟩ := hstep n hn
      exact ⟨v, fun _ => hv⟩
    · exact ⟨n, fun h => absurd h hn⟩
  choose F hFspec using hF
  obtain ⟨n0, hn0⟩ := List.exists_mem_of_ne_nil bad hne
  have hgmem : ∀ k, F^[k] n0 ∈ bad := by
    intro k
    induction k with
    | zero => simpa using hn0
    | succ k ihk =>
      rw [Function.iterate_succ_apply']
      exact (hFspec (F^[k] n0) ihk).1
  have hgR : ∀ k, R (F^[k] n0) (F^[k + 1] n0) := by
    intro k
    rw [Function.iterate_succ_apply']
    exact (hFspec (F^[k] n0) (hgmem k)).2
  have hchain : ∀ i d, Relation.TransGen R (F^[i] n0) (F^[i + d + 1] n0) := by
    intro i d
    induction d with
    | zero => exact Relation.TransGen.single (hgR i)
    | succ d ihd =>
      have hR := hgR (i + d + 1)
      have he : i + (d + 1) + 1 = (i + d + 1) + 1 := by omega
      rw [he]
      exact Relation.TransGen.tail ihd hR
  have hmaps : ∀ k ∈ Finset.range (names.length + 1),
      F^[k] n0 ∈ names.toFinset := by
    intro k _
    simpa using hsub (F^[k] n0) (hgmem k)
  have hcard : names.toFinset.card < (Finset.range (names.length + 1)).card := by
    rw [Finset.card_range]
    exact Nat.lt_succ_of_le (List.toFinset_card_le names)
  obtain ⟨i, _, j, _, hij, heq⟩ :=
    Finset.exists_ne_map_eq_of_card_lt_of_maps_to hcard hmaps
  rcases lt_or_gt_of_ne hij with h | h
  · refine ⟨F^[i] n0, ?_⟩
    have hc := hchain i (j - i - 1)
    have he : i + (j - i - 1) + 1 = j := by omega
    rw [he] at hc
    rwa [← heq] at hc
  · refine ⟨F^[j] n0, ?_⟩
    have hc := hchain j (i - j - 1)
    have he : j + (i - j - 1) + 1 = i := by omega
    rw [he] at hc
    rwa [heq] at hc

lemma countP_notmem_nil (l : List String) :
    l.countP (fun d => decide (d ∉ ([] : List String))) = l.length := by
  induction l with
  | nil => rfl
  | cons x t ih =>
    rw [List.countP_cons]
    simp [ih]

lemma topologicalSort_run (packages : List PackageInfo)
    (hnd : (packages.map (·.name)).Nodup) :
    ∃ out,
      kahnLoop (packages.map (·.name)) (depsOfFun packages)
        (2 * (packages.map (·.name)).length + 1)
        (fun n => ((depsOfFun packages n).length : Int))
        ((packages.map (·.name)).filter
          (fun n => decide (((depsOfFun packages n).length : Int) = 0))) []
        = some out ∧
      out.Nodup ∧ (∀ n ∈ out, n ∈ packages.map (·.name)) ∧
      (∀ u ∈ out, ∀ v ∈ depsOfFun packages u, List.Sublist [v, u] out) ∧
      (∀ n ∈ packages.map (·.name), n ∉ out →
        ∃ v, v ∈ depsOfFun packages n ∧ v ∉ out) := by
  set names := packages.map (·.name) with hnames
  set deg0 : String → Int := fun n => ((depsOfFun packages n).length : Int) with hdeg0
  set queue0 := names.filter (fun n => decide (deg0 n = 0)) with hqueue0
  have hinv : kahnInv names (depsOfFun packages) deg0 queue0 [] := by
    refine ⟨?_, ?_, ?_, ?_, ?_, ?_, ?_⟩
    · simpa [hqueue0] using List.Nodup.filter _ hnd
    · intro n hn
      exact (List.mem_filter.mp hn).1
    · intro n hn
      simp at hn
    · intro n _
      rw [hdeg0]
      simp only []
      rw [countP_notmem_nil]
    · intro n hn h0
      right
      rw [hqueue0]
      exact List.mem_filter.mpr ⟨hn, by simpa using h0⟩
    · intro n hn v hv
      have h0 : deg0 n = 0 := by simpa using (List.mem_filter.mp hn).2
      rw [hdeg0] at h0
      simp only [Nat.cast_eq_zero, List.length_eq_zero] at h0
      rw [h0] at hv
      cases hv
    · intro u hu
      simp at hu
  have hm : queue0.length + names.countP (fun n => decide (1 ≤ deg0 n)) <
      2 * names.length + 1 := by
    have h1 : queue0.length ≤ names.length := by
      rw [hqueue0]
      exact List.length_filter_le _ _
    have h2 : names.countP (fun n => decide (1 ≤ deg0 n)) ≤ names.length :=
      List.countP_le_length _
    omega
  exact kahnLoop_run names (depsOfFun packages) hnd
    (fun n v hv => depsOfFun_sub packages n v hv)
    (fun n => depsOfFun_nodup packages n)
    (2 * names.length + 1) deg0 queue0 [] hinv hm

lemma topologicalSort_eq {packages : List PackageInfo} {out : List String}
    (hnd : (packages.map (·.name)).Nodup)
    (hk : kahnLoop (packages.map (·.name)) (depsOfFun packages)
        (2 * (packages.map (·.name)).length + 1)
        (fun n => ((depsOfFun packages n).length : Int))
        ((packages.map (·.name)).filter
          (fun n => decide (((depsOfFun packages n).length : Int) = 0))) []
        = some out) :
    TopologicalSort packages =
      if out.length ≠ packages.length then .error .cycleDetected
      else .ok out := by
  simp only [TopologicalSort, if_pos hnd, hk]

lemma topologicalSort_all_mem {packages : List PackageInfo}
    {out : List String}
    (hnd : (packages.map (·.name)).Nodup)
    (hacyc : AcyclicDeps packages)
    (hstuck : ∀ n ∈ packages.map (·.name), n ∉ out →
      ∃ v, v ∈ depsOfFun packages n ∧ v ∉ out) :
    ∀ n ∈ packages.map (·.name), n ∈ out := by
  by_contra hcon
  push_neg at hcon
  obtain ⟨n0, hn0, hn0out⟩ := hcon
  have hbadne : (packages.map (·.name)).filter (fun n => decide (n ∉ out)) ≠ [] :=
    List.ne_nil_of_mem (List.mem_filter.mpr ⟨hn0, by simpa using hn0out⟩)
  obtain ⟨m, hm⟩ := cycle_of_stuck (R := depEdge packages) (packages.map (·.name))
    ((packages.map (·.name)).filter (fun n => decide (n ∉ out))) hbadne
    (fun n hn => (List.mem_filter.mp hn).1)
    (fun n hn => by
      obtain ⟨hn1, hn2⟩ := List.mem_filter.mp hn
      have hn2' : n ∉ out := by simpa using hn2
      obtain ⟨v, hv1, hv2⟩ := hstuck n hn1 hn2'
      refine ⟨v, List.mem_filter.mpr ⟨depsOfFun_sub packages n v hv1, by simpa using hv2⟩, ?_⟩
      exact (depEdge_iff hnd n v).mpr hv1)
  exact hacyc m hm

lemma acyclic_of_order {packages : List PackageInfo} {out : List String}
    (hnd : (packages.map (·.name)).Nodup)
    (hout_nd : out.Nodup)
    (hall : ∀ n ∈ packages.map (·.name), n ∈ out)
    (horder : ∀ u ∈ out, ∀ v ∈ depsOfFun packages u, List.Sublist [v, u] out) :
    AcyclicDeps packages := by
  intro n
  refine acyclic_of_rank (fun m => out.indexOf m) ?_ n
  intro u v huv
  have hv : v ∈ depsOfFun packages u := (depEdge_iff hnd u v).mp huv
  obtain ⟨p, hp, hpu, _⟩ := huv
  have hu : u ∈ packages.map (·.name) := hpu ▸ List.mem_map.mpr ⟨p, hp, rfl⟩
  exact sublist_pair_indexOf v u out hout_nd (horder u (hall u hu) v hv)

def demoPkgs : List PackageInfo :=
  [⟨"A", "1.0.0", ["B >= 1.0.0"], []⟩, ⟨"B", "1.0.0", [], ["C"]⟩, ⟨"C", "1.0.0", [], []⟩]

def cyclePkgs : List PackageInfo :=
  [⟨"X", "1.0.0", ["Y"], []⟩, ⟨"Y", "1.0.0", ["X"], []⟩]

def dupPkgs : List PackageInfo :=
  [⟨"A", "1.0.0", [], []⟩, ⟨"A", "2.0.0", [], []⟩]

lemma demo_acyclic : AcyclicDeps demoPkgs := by
  intro n
  refine acyclic_of_rank
    (fun m => if m = "A" then 2 else if m = "B" then 1 else 0) ?_ n
  intro u v huv
  obtain ⟨p, hp, hpu, hpv⟩ := huv
  subst hpu
  simp only [demoPkgs, List.mem_cons, List.not_mem_nil, or_false] at hp
  rcases hp with rfl | rfl | rfl
  · have he : normDeps (demoPkgs.map (·.name))
        (⟨"A", "1.0.0", ["B >= 1.0.0"], []⟩ : PackageInfo) = ["B"] := by decide
    rw [he] at hpv
    simp only [List.mem_cons, List.not_mem_nil, or_false] at hpv
    subst hpv
    decide
  · have he : normDeps (demoPkgs.map (·.name))
        (⟨"B", "1.0.0", [], ["C"]⟩ : PackageInfo) = ["C"] := by decide
    rw [he] at hpv
    simp only [List.mem_cons, List.not_mem_nil, or_false] at hpv
    subst hpv
    decide
  · have he : normDeps (demoPkgs.map (·.name))
        (⟨"C", "1.0.0", [], []⟩ : PackageInfo) = [] := by decide
    rw [he] at hpv
    simp at hpv

lemma cycle_not_acyclic : ¬ AcyclicDeps cyclePkgs := by
  intro h
  refine h "X" ?_
  have h1 : depEdge cyclePkgs "X" "Y" :=
    ⟨⟨"X", "1.0.0", ["Y"], []⟩, by decide, rfl, by decide⟩
  have h2 : depEdge cyclePkgs "Y" "X" :=
    ⟨⟨"Y", "1.0.0", ["X"], []⟩, by decide, rfl, by decide⟩
  exact Relation.TransGen.tail (Relation.TransGen.single h1) h2

/-- **C6.** For packages with distinct names and an acyclic normalized in-set
dependency graph (runtime plus build dependencies, bare names, in-set edges
only), `TopologicalSort` returns a permutation of the input names in which
every dependency appears before each package depending on it; with distinct
names but a cycle it returns the cycle error; and duplicate names are a
fatal error. -/
theorem topologicalSort_spec (packages : List PackageInfo) :
    ((packages.map (·.name)).Nodup → AcyclicDeps packages →
      ∃ out, TopologicalSort packages = .ok out ∧
        out.Perm (packages.map (·.name)) ∧
        ∀ u v, depEdge packages u v → out.indexOf v < out.indexOf u) ∧
    ((packages.map (·.name)).Nodup → ¬ AcyclicDeps packages →
      TopologicalSort packages = .error .cycleDetected) ∧
    (¬ (packages.map (·.name)).Nodup →
      TopologicalSort packages = .error .duplicatePackage) := by
  refine ⟨?_, ?_, ?_⟩
  · intro hnd hacyc
    obtain ⟨out, hk, hout_nd, hout_sub, horder, hstuck⟩ := topologicalSort_run packages hnd
    have hall : ∀ n ∈ packages.map (·.name), n ∈ out :=
      topologicalSort_all_mem hnd hacyc hstuck
    have h1 : List.Subperm out (packages.map (·.name)) :=
      List.Nodup.subperm hout_nd (fun x hx => hout_sub x hx)
    have h2 : List.Subperm (packages.map (·.name)) out :=
      List.Nodup.subperm hnd (fun x hx => hall x hx)
    have hperm : out.Perm (packages.map (·.name)) :=
      List.Subperm.perm_of_length_le h1 (List.Subperm.length_le h2)
    have hlen : out.length = packages.length := by
      have := hperm.length_eq
      simpa using this
    refine ⟨out, ?_, hperm, ?_⟩
    · rw [topologicalSort_eq hnd hk, if_neg (fun hne => hne hlen)]
    · intro u v huv
      have hv : v ∈ depsOfFun packages u := (depEdge_iff hnd u v).mp huv
      obtain ⟨p, hp, hpu, _⟩ := huv
      have hu : u ∈ packages.map (·.name) := hpu ▸ List.mem_map.mpr ⟨p, hp, rfl⟩
      exact sublist_pair_indexOf v u out hout_nd (horder u (hall u hu) v hv)
  · intro hnd hncyc
    obtain ⟨out, hk, hout_nd, hout_sub, horder, hstuck⟩ := topologicalSort_run packages hnd
    by_cases hlen : out.length = packages.length
    · exfalso
      have h1 : List.Subperm out (packages.map (·.name)) :=
        List.Nodup.subperm hout_nd (fun x hx => hout_sub x hx)
      have hperm : out.Perm (packages.map (·.name)) :=
        List.Subperm.perm_of_length_le h1 (by simpa using hlen.ge)
      have hall : ∀ n ∈ packages.map (·.name), n ∈ out :=
        fun n hn => hperm.symm.subset hn
      exact hncyc (acyclic_of_order hnd hout_nd hall horder)
    · rw [topologicalSort_eq hnd hk, if_pos hlen]
  · intro hnd
    simp only [TopologicalSort, if_neg hnd]

theorem topologicalSort_spec_witness :
    (∃ out, TopologicalSort demoPkgs = .ok out ∧
      out.Perm (demoPkgs.map (·.name)) ∧
      ∀ u v, depEdge demoPkgs u v → out.indexOf v < out.indexOf u) ∧
    TopologicalSort cyclePkgs = .error .cycleDetected ∧
    TopologicalSort dupPkgs = .error .duplicatePackage :=
  ⟨(topologicalSort_spec demoPkgs).1 (by decide) demo_acyclic,
   (topologicalSort_spec cyclePkgs).2.1 (by decide) cycle_not_acyclic,
   (topologicalSort_spec dupPkgs).2.2 (by decide)⟩

/-! ### C9: the .pc patcher of `PatchLibFiles` -/

/-- One whole-content pass of a line-anchored `ReplaceAll`: the multiline
anchors `(?m)^...$` with `.` never matching a newline decompose the
substitution into independent per-line rewrites. -/
def patchPass (f : List Char → List Char) (content : List Char) : List Char :=
  joinSep '\n' ((splitAll '\n' content).map f)

/-- Per-line action of `rePrefix.ReplaceAllString(content, "prefix="+installPrefix)`. -/
def pass1 (instPfx : List Char) (line : List Char) : List Char :=
  if "prefix=".data.isPrefixOf line then "prefix=".data ++ instPfx else line

/-- Per-line action of the `^libdir=.*` substitution. -/
def pass2 (instLibdir : List Char) (line : List Char) : List Char :=
  if "libdir=".data.isPrefixOf line then "libdir=".data ++ instLibdir else line

/-- The suffix of `l` starting at the last occurrence of `/include`
(the greedy `.*` before the group `(/include.*)` pushes the group to the
rightmost occurrence), or `none` when there is no occurrence. -/
def findLastInc : List Char → Option (List Char)
  | [] => none
  | c :: t =>
    match findLastInc t with
    | some s => some s
    | none => if "/include".data.isPrefixOf (c :: t) then some (c :: t) else none

/-- Per-line action of the `^(includedir=).*(/include.*)$` substitution. -/
def pass3 (instPfx : List Char) (line : List Char) : List Char :=
  if "includedir=".data.isPrefixOf line then
    match findLastInc (line.drop 11) with
    | some sfx => "includedir=".data ++ instPfx ++ sfx
    | none => line
  else line

/-- The `.pc` patch pipeline of `PatchLibFiles`
(src/internal/pkgclient/client.go lines 959-985): the three sequential
`ReplaceAllString` passes over the file content. -/
def patchPcContent (instPfx instLibdir content : String) : String :=
  ⟨patchPass (pass3 instPfx.data)
    (patchPass (pass2 instLibdir.data)
      (patchPass (pass1 instPfx.data) content.data))⟩

/-- Spec-side single-pass per-line description of the patcher (per §4.8):
`^prefix=.*` to `prefix=<installPrefix>`, `^libdir=.*` to
`libdir=<installLibdir>`, `^(includedir=).*(/include.*)$` keeping the
suffix from `/include` on. -/
def specPcLine (P L : List Char) (m : List Char) : List Char :=
  if "prefix=".data.isPrefixOf m then "prefix=".data ++ P
  else if "libdir=".data.isPrefixOf m then "libdir=".data ++ L
  else if "includedir=".data.isPrefixOf m then
    match findLastInc (m.drop 11) with
    | some sfx => "includedir=".data ++ P ++ sfx
    | none => m
  else m

lemma splitAllGo_mem_no_sep {sep : Char} :
    ∀ (l cur : List Char), sep ∉ cur → ∀ m ∈ splitAllGo sep cur l, sep ∉ m := by
  intro l
  induction l with
  | nil =>
    intro cur hcur m hm
    rw [splitAllGo] at hm
    simp only [List.mem_singleton] at hm
    subst hm
    simpa using hcur
  | cons c t ih =>
    intro cur hcur m hm
    rw [splitAllGo] at hm
    by_cases hc : (c == sep) = true
    · rw [if_pos hc] at hm
      rcases List.mem_cons.mp hm with rfl | hm'
      · simpa using hcur
      · exact ih [] (by simp) m hm'
    · rw [if_neg hc] at hm
      refine ih (c :: cur) ?_ m hm
      intro hmem
      rcases List.mem_cons.mp hmem with rfl | hmem'
      · exact hc (beq_self_eq_true sep)
      · exact hcur hmem'

lemma splitAll_mem_no_sep {sep : Char} {l m : List Char}
    (hm : m ∈ splitAll sep l) : sep ∉ m :=
  splitAllGo_mem_no_sep l [] (by simp) m hm

lemma splitAll_joinSep {sep : Char} :
    ∀ (ls : List (List Char)), ls ≠ [] → (∀ l ∈ ls, sep ∉ l) →
      splitAll sep (joinSep sep ls) = ls := by
  intro ls
  induction ls with
  | nil => intro h; cases h rfl
  | cons x t ih =>
    intro _ hfree
    rcases t with _ | ⟨y, ys⟩
    · rw [joinSep]
      exact splitAll_no_sep (hfree x (by simp))
    · rw [joinSep, splitAll_append_sep, splitAll_no_sep (hfree x (by simp)),
        ih (by simp) (fun l hl => hfree l (by simp [hl]))]
      rfl

lemma patchPass_lines {f : List Char → List Char} {c : List Char}
    (hf : ∀ m ∈ splitAll '\n' c, '\n' ∉ f m) :
    splitAll '\n' (patchPass f c) = (splitAll '\n' c).map f := by
  rw [patchPass]
  exact splitAll_joinSep _ (by simpa using splitAll_ne_nil '\n' c)
    (by
      intro l hl
      obtain ⟨m, hm, rfl⟩ := List.mem_map.mp hl
      exact hf m hm)

lemma isPrefixOf_ne_head {a b : Char} {as bs : List Char} (h : (a == b) = false) :
    (a :: as).isPrefixOf (b :: bs) = false := by
  simp only [List.isPrefixOf, h, Bool.false_and]

lemma pass1_no_newline {P m : List Char} (hP : '\n' ∉ P) (hm : '\n' ∉ m) :
    '\n' ∉ pass1 P m := by
  rw [pass1]
  by_cases h : "prefix=".data.isPrefixOf m = true
  · rw [if_pos h]
    intro hmem
    rcases List.mem_append.mp hmem with h1 | h1
    · revert h1
      decide
    · exact hP h1
  · rw [if_neg h]
    exact hm

lemma pass2_no_newline {L m : List Char} (hL : '\n' ∉ L) (hm : '\n' ∉ m) :
    '\n' ∉ pass2 L m := by
  rw [pass2]
  by_cases h : "libdir=".data.isPrefixOf m = true
  · rw [if_pos h]
    intro hmem
    rcases List.mem_append.mp hmem with h1 | h1
    · revert h1
      decide
    · exact hL h1
  · rw [if_neg h]
    exact hm

lemma pcLine_composite (P L m : List Char) :
    pass3 P (pass2 L (pass1 P m)) = specPcLine P L m := by
  rw [specPcLine]
  by_cases hp : "prefix=".data.isPrefixOf m = true
  · rw [if_pos hp, pass1, if_pos hp]
    have h2 : "libdir=".data.isPrefixOf ("prefix=".data ++ P) = false := by
      show ('l' :: "ibdir=".data).isPrefixOf ('p' :: ("refix=".data ++ P)) = false
      exact isPrefixOf_ne_head (by decide)
    have h3 : "includedir=".data.isPrefixOf ("prefix=".data ++ P) = false := by
      show ('i' :: "ncludedir=".data).isPrefixOf ('p' :: ("refix=".data ++ P)) = false
      exact isPrefixOf_ne_head (by decide)
    rw [pass2, if_neg (by simp [h2]), pass3, if_neg (by simp [h3])]
  · rw [if_neg hp, pass1, if_neg hp]
    by_cases hl : "libdir=".data.isPrefixOf m = true
    · rw [if_pos hl, pass2, if_pos hl]
      have h3 : "includedir=".data.isPrefixOf ("libdir=".data ++ L) = false := by
        show ('i' :: "ncludedir=".data).isPrefixOf ('l' :: ("ibdir=".data ++ L)) = false
        exact isPrefixOf_ne_head (by decide)
      rw [pass3, if_neg (by simp [h3])]
    · rw [if_neg hl, pass2, if_neg hl, pass3]

lemma patchPcContent_lines (P L content : String)
    (hP : '\n' ∉ P.data) (hL : '\n' ∉ L.data) :
    (patchPcContent P L content).data =
      joinSep '\n' ((splitAll '\n' content.data).map (specPcLine P.data L.data)) := by
  rw [patchPcContent]
  show patchPass (pass3 P.data) (patchPass (pass2 L.data)
      (patchPass (pass1 P.data) content.data)) = _
  have h1 : splitAll '\n' (patchPass (pass1 P.data) content.data)
      = (splitAll '\n' content.data).map (pass1 P.data) :=
    patchPass_lines (fun m hm => pass1_no_newline hP (splitAll_mem_no_sep hm))
  have h2 : splitAll '\n' (patchPass (pass2 L.data)
        (patchPass (pass1 P.data) content.data))
      = ((splitAll '\n' content.data).map (pass1 P.data)).map (pass2 L.data) := by
    rw [patchPass_lines ?_, h1]
    intro m hm
    rw [h1] at hm
    obtain ⟨m0, hm0, rfl⟩ := List.mem_map.mp hm
    exact pass2_no_newline hL (pass1_no_newline hP (splitAll_mem_no_sep hm0))
  rw [patchPass, h2, List.map_map, List.map_map]
  refine congrArg _ (List.map_congr_left ?_)
  intro m _
  exact pcLine_composite P.data L.data m

/-- **C9.** The `.pc` patcher rewrites each line matching `^prefix=.*` to
`prefix=<installPrefix>`, each line matching `^libdir=.*` to
`libdir=<installLibdir>`, and each `^(includedir=).*(/include.*)$` line so
that everything before the (last) `/include` becomes
`includedir=<installPrefix>` while the suffix from `/include` on is kept
(stated for newline-free replacement values, which is what makes the three
multiline passes per-line); and the spec's concrete example patches exactly
as stated. -/
theorem patchLibFiles_spec :
    (∀ (P L content : String), '\n' ∉ P.data → '\n' ∉ L.data →
      (patchPcContent P L content).data =
        joinSep '\n' ((splitAll '\n' content.data).map (specPcLine P.data L.data))) ∧
    patchPcContent "/opt/p" "/opt/p/lib/aarch64-linux-ohos"
        "prefix=/build/x\nlibdir=$\x7bprefix\x7d/lib\nincludedir=$\x7bprefix\x7d/include\n" =
      "prefix=/opt/p\nlibdir=/opt/p/lib/aarch64-linux-ohos\nincludedir=/opt/p/include\n" := by
  refine ⟨?_, ?_⟩
  · intro P L content hP hL
    exact patchPcContent_lines P L content hP hL
  · decide

theorem patchLibFiles_spec_witness :
    (patchPcContent "/p9" "/l9" "prefix=a\nx=1\n").data =
      joinSep '\n' ((splitAll '\n' ("prefix=a\nx=1\n" : String).data).map
        (specPcLine ("/p9" : String).data ("/l9" : String).data)) :=
  patchLibFiles_spec.1 "/p9" "/l9" "prefix=a\nx=1\n" (by decide) (by decide)

/-! ### C8: the client download step -/

inductive DownloadResult where
  | ok
  | checksumMismatch
deriving DecidableEq, Repr

/-- The cache state seen by `download`: the SHA-256 of the cache file for
this entry if one exists, and how many times `DownloadToFile` ran. -/
structure DownloadState where
  cached : Option String
  downloads : Nat
deriving DecidableEq, Repr

/-- `Client.download` (src/internal/pkgclient/client.go lines 614-653),
with files represented by their SHA-256 and the URL fetch delivering a file
of checksum `fetched`: stat the cache; on a cached checksum mismatch remove
the file and re-download; then verify once more; a mismatch there is the
fatal `checksum mismatch` error. -/
def download (fetched expected : String) (st : DownloadState) :
    DownloadState × DownloadResult :=
  let s := match st.cached with
    | none => (st, true)
    | some h =>
      if h == expected then (st, false)
      else ({ st with cached := none }, true)
  let st2 := if s.2
    then { cached := some fetched, downloads := s.1.downloads + 1 }
    else s.1
  match st2.cached with
  | some h => if h == expected then (st2, .ok) else (st2, .checksumMismatch)
  | none => (st2, .checksumMismatch)

/-- **C8.** A cached file with mismatching SHA-256 is deleted and the
package downloaded exactly once more, the re-downloaded file replacing the
cache entry; the post-download verification fails fatally (with no further
retry) exactly when the fetched file's checksum differs from the expected
one; and a cache file whose checksum already matches is used with no
download at all. -/
theorem download_spec (fetched expected h : String) :
    (h ≠ expected →
      (download fetched expected ⟨some h, 0⟩).1.downloads = 1 ∧
      (download fetched expected ⟨some h, 0⟩).1.cached = some fetched ∧
      (download fetched expected ⟨some h, 0⟩).2 =
        (if fetched = expected then DownloadResult.ok
         else DownloadResult.checksumMismatch)) ∧
    ((download fetched expected ⟨some expected, 0⟩).1.downloads = 0 ∧
     (download fetched expected ⟨some expected, 0⟩).1.cached = some expected ∧
     (download fetched expected ⟨some expected, 0⟩).2 = DownloadResult.ok) := by
  constructor
  · intro hne
    have hbe : (h == expected) = false := beq_eq_false_iff_ne.mpr hne
    refine ⟨?_, ?_, ?_⟩ <;> (
      rw [download]
      simp only [hbe, Bool.false_eq_true, if_false]
      by_cases hf : fetched = expected <;> simp [hf])
  · refine ⟨?_, ?_, ?_⟩ <;> (
      rw [download]
      simp)

theorem download_spec_witness :
    "a" ≠ "b" ∧
    ((download "c" "b" ⟨some "a", 0⟩).1.downloads = 1 ∧
     (download "c" "b" ⟨some "a", 0⟩).1.cached = some "c" ∧
     (download "c" "b" ⟨some "a", 0⟩).2 =
       (if "c" = "b" then DownloadResult.ok
        else DownloadResult.checksumMismatch)) :=
  ⟨by decide, (download_spec "c" "b" "a").1 (by decide)⟩

/-! ### C7: DeployPackage and regenerateIndex

The package repository filesystem is modelled as an association list from
paths to file data, written in insertion order (Go's lexically ordered
`WalkDir` is refined to this deterministic listing order; the claim is
order-insensitive). `filepath.Join` is modelled for clean, non-empty
components as `a ++ "/" ++ b`. SHA-256 is an oracle parameter
`sha : List Nat → String` over byte contents. -/

/-- `meta.Manifest` (src/pkg/meta/types.go), restricted to the fields
read or written by the deploy path (the optional descriptive JSON fields
are not modelled). -/
structure Manifest where
  name : String
  version : String
  arch : String
  ohosApi : String
  size : Nat
  sha256 : String
  url : String
  depends : List String
deriving DecidableEq, Repr

/-- `meta.IndexEntry` (src/pkg/meta/types.go). -/
structure IndexEntry where
  name : String
  version : String
  arch : String
  ohosApi : String
  url : String
  sha256 : String
  size : Nat
  manifest : String
  depends : List String
deriving DecidableEq, Repr

/-- `meta.Index` (src/pkg/meta/types.go; the `generated` timestamp is not
modelled). -/
structure Index where
  repo : String
  channel : String
  packages : List IndexEntry
deriving DecidableEq, Repr

inductive FileData where
  | raw (content : List Nat)
  | manifestFile (m : Manifest)
  | indexFile (i : Index)
deriving DecidableEq, Repr

/-- Read a file. -/
def fsGet : List (String × FileData) → String → Option FileData
  | [], _ => none
  | e :: t, p => if e.1 = p then some e.2 else fsGet t p

/-- Write (create or overwrite) a file. -/
def fsSet : List (String × FileData) → String → FileData → List (String × FileData)
  | [], p, d => [(p, d)]
  | e :: t, p, d => if e.1 = p then (p, d) :: t else e :: fsSet t p d

/-- `filepath.Join` on two clean, non-empty components. -/
def joinPath (a b : String) : String :=
  a ++ "/" ++ b

def GenPkgManifestName (pkgName pkgVersion pkgArch pkgAPI : String) : String :=
  pkgName ++ "-" ++ pkgVersion ++ "-" ++ pkgArch ++ "-api" ++ pkgAPI ++ ".json"

/-- Is `path` a `.json` file strictly below `pkgsDir` (the files
`regenerateIndex`'s walk turns into entries)? -/
def isJsonUnder (pkgsDir : String) (path : String) : Bool :=
  (pkgsDir ++ "/").data.isPrefixOf path.data &&
    (filepathExt path.data == ".json".data)

inductive DeployError where
  | missingArg
  | manifestNotFound
  | invalidPkg
  | indexReadError
deriving DecidableEq, Repr

/-- The entry built from one walked manifest file
(src/unnamed/part_000 lines 417-446); `none` when a walked `.json` file
does not parse as a manifest. -/
def collectEntries (channel : String) :
    List (String × FileData) → Option (List IndexEntry)
  | [] => some []
  | (path, .manifestFile m) :: rest =>
    match collectEntries channel rest with
    | none => none
    | some es =>
      let base := filepathBase path.data
      let pkgName := base.take (base.length - 5) ++ ".pkg".data
      some ({ name := m.name, version := m.version, arch := m.arch,
              ohosApi := m.ohosApi,
              url := "channels/" ++ channel ++ "/pkgs/" ++ ⟨pkgName⟩,
              sha256 := m.sha256, size := m.size,
              manifest := "channels/" ++ channel ++ "/pkgs/" ++ ⟨base⟩,
              depends := m.depends } :: es)
  | (_, .raw _) :: _ => none
  | (_, .indexFile _) :: _ => none

/-- `regenerateIndex` (src/unnamed/part_000 lines 411-463). -/
def regenerateIndex (fs : List (String × FileData)) (basePath channel : String) :
    Except DeployError (List (String × FileData)) :=
  let chPath := joinPath (joinPath basePath "channels") channel
  let pkgsDir := joinPath chPath "pkgs"
  match collectEntries channel (fs.filter (fun e => isJsonUnder pkgsDir e.1)) with
  | none => .error .indexReadError
  | some entries =>
    .ok (fsSet fs (joinPath chPath "index.json")
      (.indexFile ⟨⟨filepathBase basePath.data⟩, channel, entries⟩))

/-- `DeployPackage` (src/unnamed/part_000 lines 355-409): validate the
arguments, read the manifest, validate the `.pkg` file, copy it to
`pkgs/<fp>.pkg` with `<fp>` generated from the manifest's own fields,
rewrite size / sha256 / url in the manifest copied to `pkgs/<fp>.json`,
and regenerate `index.json`. -/
def DeployPackage (fs : List (String × FileData)) (sha : List Nat → String)
    (basePath channel pkgFile manifestFile : String) :
    Except DeployError (List (String × FileData)) :=
  if pkgFile = "" ∨ manifestFile = "" then .error .missingArg
  else
    let chPath := joinPath (joinPath basePath "channels") channel
    let pkgsDir := joinPath chPath "pkgs"
    match fsGet fs manifestFile with
    | some (.manifestFile m) =>
      if ".pkg".data.isSuffixOf (filepathBase pkgFile.data) then
        match fsGet fs pkgFile with
        | some (.raw content) =>
          let pkgBase := GenPkgFileName m.name m.version m.arch m.ohosApi
          let manifestBase := GenPkgManifestName m.name m.version m.arch m.ohosApi
          let fs1 := fsSet fs (joinPath pkgsDir pkgBase) (.raw content)
          let m2 := { m with
            size := content.length
            sha256 := sha content
            url := "channels/" ++ channel ++ "/pkgs/" ++ pkgBase }
          let fs2 := fsSet fs1 (joinPath pkgsDir manifestBase) (.manifestFile m2)
          regenerateIndex fs2 basePath channel
        | _ => .error .invalidPkg
      else .error .invalidPkg
    | _ => .error .manifestNotFound

lemma fsGet_set_self (fs : List (String × FileData)) (p : String) (d : FileData) :
    fsGet (fsSet fs p d) p = some d := by
  induction fs with
  | nil => simp [fsSet, fsGet]
  | cons e t ih =>
    rw [fsSet]
    by_cases he : e.1 = p
    · rw [if_pos he, fsGet, if_pos rfl]
    · rw [if_neg he, fsGet, if_neg he]
      exact ih

lemma fsGet_set_ne (fs : List (String × FileData)) (p q : String) (d : FileData)
    (h : q ≠ p) : fsGet (fsSet fs p d) q = fsGet fs q := by
  induction fs with
  | nil => simp [fsSet, fsGet, Ne.symm h]
  | cons e t ih =>
    by_cases he : e.1 = p
    · subst he
      simp [fsSet, fsGet, Ne.symm h]
    · by_cases hq : e.1 = q <;> simp [fsSet, fsGet, he, hq, ih, h]

lemma filter_fsSet (fs : List (String × FileData)) (p : String) (d : FileData)
    (pred : String → Bool) (hp : pred p = false) :
    (fsSet fs p d).filter (fun e => pred e.1) = fs.filter (fun e => pred e.1) := by
  induction fs with
  | nil => simp [fsSet, hp]
  | cons e t ih =>
    by_cases he : e.1 = p
    · rw [fsSet, if_pos he]
      rw [List.filter_cons, List.filter_cons]
      simp [he, hp]
    · rw [fsSet, if_neg he]
      rw [List.filter_cons, List.filter_cons]
      by_cases hq : pred e.1 <;> simp [hq, ih]

lemma collectEntries_length (channel : String) :
    ∀ (l : List (String × FileData)) (es : List IndexEntry),
      collectEntries channel l = some es → es.length = l.length := by
  intro l
  induction l with
  | nil =>
    intro es h
    rw [collectEntries] at h
    cases h
    rfl
  | cons e t ih =>
    intro es h
    rcases e with ⟨path, d⟩
    rcases d with content | m | i
    · rw [collectEntries] at h
      cases h
    · rw [collectEntries] at h
      rcases hc : collectEntries channel t with _ | es' <;> rw [hc] at h
      · cases h
      · cases h
        simp [ih es' hc]
    · rw [collectEntries] at h
      cases h

lemma joinPath_data (a b : String) : (joinPath a b).data = a.data ++ '/' :: b.data := by
  rw [joinPath, String.data_append, String.data_append, List.append_assoc]
  rfl

lemma isPrefixOf_append_same (a x y : List Char) :
    (a ++ x).isPrefixOf (a ++ y) = x.isPrefixOf y := by
  induction a with
  | nil => rfl
  | cons c t ih => simp [List.isPrefixOf, ih]

lemma joinPath_last (p A : String) (hA : A.data ≠ []) :
    (joinPath p A).data.getLast? = A.data.getLast? := by
  rw [joinPath_data,
    show p.data ++ '/' :: A.data = (p.data ++ ['/']) ++ A.data from by simp]
  exact List.getLast?_append_of_ne_nil _ hA

lemma genPkgFileName_last (n v a api : String) :
    (GenPkgFileName n v a api).data.getLast? = some 'g' := by
  rw [GenPkgFileName, String.data_append,
    List.getLast?_append_of_ne_nil _ (show (".pkg" : String).data ≠ [] by decide)]
  decide

lemma genPkgManifestName_last (n v a api : String) :
    (GenPkgManifestName n v a api).data.getLast? = some 'n' := by
  rw [GenPkgManifestName, String.data_append,
    List.getLast?_append_of_ne_nil _ (show (".json" : String).data ≠ [] by decide)]
  decide

lemma ne_of_getLast?_ne {a b : String} (h : a.data.getLast? ≠ b.data.getLast?) :
    a ≠ b :=
  fun he => h (he ▸ rfl)

lemma ne_nil_of_getLast?_eq_some {l : List Char} {c : Char}
    (h : l.getLast? = some c) : l ≠ [] := by
  intro he
  rw [he] at h
  cases h

lemma pkgsPath_ne_indexPath (chPath x : String) :
    joinPath (joinPath chPath "pkgs") x ≠ joinPath chPath "index.json" := by
  intro h
  have hd := congrArg String.data h
  rw [joinPath_data, joinPath_data, joinPath_data, List.append_assoc] at hd
  have h2 := List.append_cancel_left hd
  rw [List.cons_append] at h2
  have h4 := (List.cons.inj h2).2
  rw [show ("pkgs" : String).data = 'p' :: ("kgs" : String).data from rfl,
    List.cons_append,
    show ("index.json" : String).data = 'i' :: ("ndex.json" : String).data from rfl]
    at h4
  exact absurd (List.cons.inj h4).1 (by decide)

lemma isJsonUnder_index_false (chPath : String) :
    isJsonUnder (joinPath chPath "pkgs") (joinPath chPath "index.json") = false := by
  rw [isJsonUnder]
  have h1 : ((joinPath chPath "pkgs") ++ "/").data
      = chPath.data ++ ('/' :: ("pkgs/" : String).data) := by
    rw [String.data_append, joinPath_data, List.append_assoc]
    exact congrArg (fun t => chPath.data ++ t) (by decide)
  have h2 : (joinPath chPath "index.json").data
      = chPath.data ++ ('/' :: ("index.json" : String).data) := joinPath_data _ _
  rw [h1, h2, isPrefixOf_append_same]
  rw [show ('/' :: ("pkgs/" : String).data).isPrefixOf
        ('/' :: ("index.json" : String).data)
      = ("pkgs/" : String).data.isPrefixOf ("index.json" : String).data from by
    simp [List.isPrefixOf]]
  rw [show ("pkgs/" : String).data.isPrefixOf ("index.json" : String).data = false
    from by decide]
  rfl

/-- **C7.** When `DeployPackage` succeeds, the manifest written at
`channels/ch/pkgs/<fp>.json` carries the SHA-256 of the deployed file
`channels/ch/pkgs/<fp>.pkg`, its byte length as `size`, and
`channels/ch/pkgs/<fp>.pkg` as `url`, with the fingerprint `<fp>`
generated from the manifest's own name/version/arch/ohos_api fields; and
the regenerated `index.json` holds exactly one entry per `.json` manifest
file under `pkgs/`. -/
theorem deployPackage_spec (fs : List (String × FileData)) (sha : List Nat → String)
    (basePath channel pkgFile manifestFile : String)
    (fsOut : List (String × FileData))
    (h : DeployPackage fs sha basePath channel pkgFile manifestFile = .ok fsOut) :
    ∃ m content idx,
      fsGet fs manifestFile = some (.manifestFile m) ∧
      fsGet fs pkgFile = some (.raw content) ∧
      fsGet fsOut (joinPath (joinPath (joinPath (joinPath basePath "channels") channel) "pkgs")
          (GenPkgFileName m.name m.version m.arch m.ohosApi)) = some (.raw content) ∧
      fsGet fsOut (joinPath (joinPath (joinPath (joinPath basePath "channels") channel) "pkgs")
          (GenPkgManifestName m.name m.version m.arch m.ohosApi)) =
        some (.manifestFile { m with
          size := content.length
          sha256 := sha content
          url := "channels/" ++ channel ++ "/pkgs/" ++
            GenPkgFileName m.name m.version m.arch m.ohosApi }) ∧
      fsGet fsOut (joinPath (joinPath (joinPath basePath "channels") channel) "index.json") =
        some (.indexFile idx) ∧
      collectEntries channel (fsOut.filter (fun e =>
        isJsonUnder (joinPath (joinPath (joinPath basePath "channels") channel) "pkgs") e.1)) =
        some idx.packages ∧
      idx.packages.length = (fsOut.filter (fun e =>
        isJsonUnder (joinPath (joinPath (joinPath basePath "channels") channel) "pkgs") e.1)).length := by
  rw [DeployPackage] at h
  split at h
  · cases h
  split at h
  rotate_left
  · cases h
  rename_i m hman
  split at h
  rotate_left
  · cases h
  rename_i hsuf
  split at h
  rotate_left
  · cases h
  rename_i content hpkg
  rw [regenerateIndex] at h
  split at h
  · cases h
  rename_i entries hent
  cases h
  have hgne : (GenPkgFileName m.name m.version m.arch m.ohosApi).data ≠ [] :=
    ne_nil_of_getLast?_eq_some (genPkgFileName_last _ _ _ _)
  have hnne : (GenPkgManifestName m.name m.version m.arch m.ohosApi).data ≠ [] :=
    ne_nil_of_getLast?_eq_some (genPkgManifestName_last _ _ _ _)
  have hPneM : joinPath (joinPath (joinPath (joinPath basePath "channels") channel) "pkgs")
        (GenPkgFileName m.name m.version m.arch m.ohosApi) ≠
      joinPath (joinPath (joinPath (joinPath basePath "channels") channel) "pkgs")
        (GenPkgManifestName m.name m.version m.arch m.ohosApi) :=
    ne_of_getLast?_ne (by
      rw [joinPath_last _ _ hgne, joinPath_last _ _ hnne, genPkgFileName_last,
        genPkgManifestName_last]
      decide)
  have hPneI : joinPath (joinPath (joinPath (joinPath basePath "channels") channel) "pkgs")
        (GenPkgFileName m.name m.version m.arch m.ohosApi) ≠
      joinPath (joinPath (joinPath basePath "channels") channel) "index.json" :=
    ne_of_getLast?_ne (by
      rw [joinPath_last _ _ hgne, genPkgFileName_last,
        joinPath_last _ _ (show ("index.json" : String).data ≠ [] by decide)]
      decide)
  have hMneI : joinPath (joinPath (joinPath (joinPath basePath "channels") channel) "pkgs")
        (GenPkgManifestName m.name m.version m.arch m.ohosApi) ≠
      joinPath (joinPath (joinPath basePath "channels") channel) "index.json" :=
    pkgsPath_ne_indexPath _ _
  have hIdxPred : isJsonUnder
      (joinPath (joinPath (joinPath basePath "channels") channel) "pkgs")
      (joinPath (joinPath (joinPath basePath "channels") channel) "index.json") = false :=
    isJsonUnder_index_false _
  refine ⟨m, content, ⟨⟨filepathBase basePath.data⟩, channel, entries⟩,
    hman, hpkg, ?_, ?_, ?_, ?_, ?_⟩
  · rw [fsGet_set_ne _ _ _ _ hPneI, fsGet_set_ne _ _ _ _ hPneM]
    exact fsGet_set_self _ _ _
  · rw [fsGet_set_ne _ _ _ _ hMneI]
    exact fsGet_set_self _ _ _
  · exact fsGet_set_self _ _ _
  · rw [filter_fsSet _ _ _ _ hIdxPred]
    exact hent
  · rw [filter_fsSet _ _ _ _ hIdxPred]
    exact collectEntries_length channel _ entries hent

def wDm : Manifest := ⟨"n", "1", "x", "5", 0, "", "", []⟩

def wFs : List (String × FileData) :=
  [("m.json", .manifestFile wDm), ("p.pkg", .raw [7])]

def wOut : List (String × FileData) :=
  [("m.json", .manifestFile wDm),
   ("p.pkg", .raw [7]),
   ("base/channels/ch/pkgs/n-1-x-api5.pkg", .raw [7]),
   ("base/channels/ch/pkgs/n-1-x-api5.json",
    .manifestFile ⟨"n", "1", "x", "5", 1, "H", "channels/ch/pkgs/n-1-x-api5.pkg", []⟩),
   ("base/channels/ch/index.json",
    .indexFile ⟨"base", "ch",
      [⟨"n", "1", "x", "5", "channels/ch/pkgs/n-1-x-api5.pkg", "H", 1,
        "channels/ch/pkgs/n-1-x-api5.json", []⟩]⟩)]

theorem deployPackage_spec_witness :
    ∃ m content idx,
      fsGet wFs "m.json" = some (.manifestFile m) ∧
      fsGet wFs "p.pkg" = some (.raw content) ∧
      fsGet wOut (joinPath (joinPath (joinPath (joinPath "base" "channels") "ch") "pkgs")
          (GenPkgFileName m.name m.version m.arch m.ohosApi)) = some (.raw content) ∧
      fsGet wOut (joinPath (joinPath (joinPath (joinPath "base" "channels") "ch") "pkgs")
          (GenPkgManifestName m.name m.version m.arch m.ohosApi)) =
        some (.manifestFile { m with
          size := content.length
          sha256 := (fun _ => "H") content
          url := "channels/" ++ "ch" ++ "/pkgs/" ++
            GenPkgFileName m.name m.version m.arch m.ohosApi }) ∧
      fsGet wOut (joinPath (joinPath (joinPath "base" "channels") "ch") "index.json") =
        some (.indexFile idx) ∧
      collectEntries "ch" (wOut.filter (fun e =>
        isJsonUnder (joinPath (joinPath (joinPath "base" "channels") "ch") "pkgs") e.1)) =
        some idx.packages ∧
      idx.packages.length = (wOut.filter (fun e =>
        isJsonUnder (joinPath (joinPath (joinPath "base" "channels") "ch") "pkgs") e.1)).length :=
  deployPackage_spec wFs (fun _ => "H") "base" "ch" "p.pkg" "m.json" wOut rfl

/-! ### C1/C10: semver ordering facts used by the resolver's sort -/

lemma natCmp_range (x y : Nat) : natCmp x y = -1 ∨ natCmp x y = 0 ∨ natCmp x y = 1 := by
  rw [natCmp]
  by_cases h1 : x < y <;> by_cases h2 : y < x <;> simp [h1, h2]

lemma strCmpGo_range : ∀ (a b : List Char),
    strCmpGo a b = -1 ∨ strCmpGo a b = 0 ∨ strCmpGo a b = 1
  | [], [] => by rw [strCmpGo]; simp
  | [], _ :: _ => by rw [strCmpGo]; simp
  | _ :: _, [] => by rw [strCmpGo]; simp
  | a :: as, b :: bs => by
    rw [strCmpGo]
    by_cases h1 : a.toNat < b.toNat <;> by_cases h2 : b.toNat < a.toNat <;>
      simp [h1, h2]
    exact strCmpGo_range as bs

lemma prCompare_range (a b : PRVersion) :
    prCompare a b = -1 ∨ prCompare a b = 0 ∨ prCompare a b = 1 := by
  rw [prCompare]
  by_cases ha : a.isNum <;> by_cases hb : b.isNum <;> simp [ha, hb]
  · exact natCmp_range _ _
  · exact strCmpGo_range _ _

lemma preListCmp_range : ∀ (a b : List PRVersion),
    preListCmp a b = -1 ∨ preListCmp a b = 0 ∨ preListCmp a b = 1
  | [], [] => by rw [preListCmp]; simp
  | [], _ :: _ => by rw [preListCmp]; simp
  | _ :: _, [] => by rw [preListCmp]; simp
  | a :: as, b :: bs => by
    rw [preListCmp]
    by_cases h : prCompare a b = 0
    · rw [if_pos h]
      exact preListCmp_range as bs
    · rw [if_neg h]
      exact prCompare_range a b

lemma natCmp_neg (x y : Nat) : natCmp x y = -(natCmp y x) := by
  rw [natCmp, natCmp]
  by_cases h1 : x < y <;> by_cases h2 : y < x <;> simp [h1, h2] <;> omega

lemma natCmp_trans {x y z : Nat} (h1 : natCmp x y ≠ 1) (h2 : natCmp y z ≠ 1) :
    natCmp x z ≠ 1 := by
  rw [natCmp] at h1 h2 ⊢
  by_cases ha : x < y <;> by_cases hb : y < x <;> by_cases hc : y < z <;>
    by_cases hd : z < y <;> by_cases he : x < z <;> by_cases hf : z < x <;>
    simp [ha, hb, hc, hd, he, hf] at h1 h2 ⊢ <;> omega

lemma natCmp_eq_zero {x y : Nat} (h : natCmp x y = 0) : x = y := by
  rw [natCmp] at h
  by_cases ha : x < y <;> by_cases hb : y < x <;> simp [ha, hb] at h <;> omega

lemma strCmpGo_neg : ∀ (a b : List Char), strCmpGo a b = -(strCmpGo b a)
  | [], [] => rfl
  | [], _ :: _ => rfl
  | _ :: _, [] => rfl
  | a :: as, b :: bs => by
    rw [strCmpGo, strCmpGo]
    by_cases h1 : a.toNat < b.toNat <;> by_cases h2 : b.toNat < a.toNat <;>
      simp [h1, h2]
    · omega
    · exact strCmpGo_neg as bs

lemma char_eq_of_toNat_eq {a b : Char} (h : a.toNat = b.toNat) : a = b :=
  Char.eq_of_val_eq (UInt32.ext h)

lemma strCmpGo_eq_zero : ∀ {a b : List Char}, strCmpGo a b = 0 → a = b
  | [], [], _ => rfl
  | [], _ :: _, h => by rw [strCmpGo] at h; cases h
  | _ :: _, [], h => by rw [strCmpGo] at h; cases h
  | a :: as, b :: bs, h => by
    rw [strCmpGo] at h
    by_cases h1 : a.toNat < b.toNat <;> by_cases h2 : b.toNat < a.toNat <;>
      simp [h1, h2] at h
    have hab : a = b := char_eq_of_toNat_eq (by omega)
    rw [hab, strCmpGo_eq_zero h]

lemma strCmpGo_trans : ∀ {a b c : List Char},
    strCmpGo a b ≠ 1 → strCmpGo b c ≠ 1 → strCmpGo a c ≠ 1
  | [], b, c, _, _ => by
    rcases c with _ | ⟨z, zs⟩
    · simp [show strCmpGo [] [] = 0 from rfl]
    · simp [show strCmpGo [] (z :: zs) = -1 from rfl]
  | x :: xs, [], c, h1, _ => absurd rfl h1
  | x :: xs, y :: ys, [], _, h2 => absurd rfl h2
  | x :: xs, y :: ys, z :: zs, h1, h2 => by
    rw [strCmpGo] at h1 h2 ⊢
    by_cases ha : x.toNat < y.toNat <;> by_cases hb : y.toNat < x.toNat <;>
      simp [ha, hb] at h1 <;>
    by_cases hc : y.toNat < z.toNat <;> by_cases hd : z.toNat < y.toNat <;>
      simp [hc, hd] at h2 <;>
    by_cases he : x.toNat < z.toNat <;> by_cases hf : z.toNat < x.toNat <;>
      simp [he, hf] <;> try omega
    all_goals exact strCmpGo_trans h1 h2

lemma prCompare_neg (a b : PRVersion) : prCompare a b = -(prCompare b a) := by
  rw [prCompare, prCompare]
  by_cases ha : a.isNum <;> by_cases hb : b.isNum <;> simp [ha, hb]
  · exact natCmp_neg _ _
  · exact strCmpGo_neg _ _

lemma prCompare_trans {a b c : PRVersion} (h1 : prCompare a b ≠ 1)
    (h2 : prCompare b c ≠ 1) : prCompare a c ≠ 1 := by
  rw [prCompare] at h1 h2 ⊢
  by_cases ha : a.isNum <;> by_cases hb : b.isNum <;> by_cases hc : c.isNum <;>
    simp [ha, hb, hc] at h1 h2 ⊢
  · exact natCmp_trans h1 h2
  · exact strCmpGo_trans h1 h2

lemma prCompare_subst {a b : PRVersion} (h : prCompare a b = 0) (x : PRVersion) :
    prCompare a x = prCompare b x := by
  rw [prCompare] at h
  by_cases ha : a.isNum <;> by_cases hb : b.isNum <;> simp [ha, hb] at h
  · have h2 := natCmp_eq_zero h
    by_cases hx : x.isNum <;> simp [prCompare, ha, hb, h2, hx]
  · have h2 := strCmpGo_eq_zero h
    by_cases hx : x.isNum <;> simp [prCompare, ha, hb, h2, hx]

lemma preListCmp_neg : ∀ (a b : List PRVersion), preListCmp a b = -(preListCmp b a)
  | [], [] => rfl
  | [], _ :: _ => rfl
  | _ :: _, [] => rfl
  | a :: as, b :: bs => by
    rw [preListCmp, preListCmp]
    by_cases h : prCompare a b = 0
    · rw [if_pos h, if_pos (by rw [prCompare_neg] at h; omega)]
      exact preListCmp_neg as bs
    · rw [if_neg h, if_neg (by rw [prCompare_neg] at h; omega)]
      rw [prCompare_neg]

lemma preListCmp_trans : ∀ {a b c : List PRVersion},
    preListCmp a b ≠ 1 → preListCmp b c ≠ 1 → preListCmp a c ≠ 1
  | [], _, c, _, _ => by
    rcases c with _ | ⟨z, zs⟩
    · simp [show preListCmp [] [] = 0 from rfl]
    · simp [show preListCmp [] (z :: zs) = -1 from rfl]
  | x :: xs, [], _, h1, _ => absurd rfl h1
  | x :: xs, y :: ys, [], _, h2 => absurd rfl h2
  | x :: xs, y :: ys, z :: zs, h1, h2 => by
    rw [preListCmp] at h1 h2 ⊢
    by_cases hxy : prCompare x y = 0
    · rw [if_pos hxy] at h1
      rw [prCompare_subst hxy z]
      by_cases hyz : prCompare y z = 0
      · rw [if_pos hyz] at h2
        rw [if_pos hyz]
        exact preListCmp_trans h1 h2
      · rw [if_neg hyz] at h2
        rw [if_neg hyz]
        exact h2
    · rw [if_neg hxy] at h1
      by_cases hyz : prCompare y z = 0
      · have hzy : prCompare z y = 0 := by rw [prCompare_neg] at hyz; omega
        have hxz : prCompare x z = prCompare x y := by
          rw [prCompare_neg, prCompare_subst hzy x, ← prCompare_neg]
        rw [hxz, if_neg hxy]
        exact h1
      · rw [if_neg hyz] at h2
        have hxz1 : prCompare x z ≠ 1 := prCompare_trans h1 h2
        have hxz0 : prCompare x z ≠ 0 := by
          intro h0
          have hsub := prCompare_subst h0 y
          have hzy := prCompare_neg z y
          rcases prCompare_range x y with h | h | h <;> omega
        rw [if_neg hxz0]
        exact hxz1

/-- Lexicographic combination of two comparator results. -/
def lexInt (c d : Int) : Int := if c = 0 then d else c

/-- The pre-release block of `semver.Version.Compare` as a standalone
comparator. -/
def preCmp (p q : List PRVersion) : Int :=
  if p.isEmpty && q.isEmpty then 0
  else if p.isEmpty then 1
  else if q.isEmpty then -1
  else preListCmp p q

lemma natCmp_self (x : Nat) : natCmp x x = 0 := by
  rw [natCmp]
  simp

lemma natCmp_strict {x y z : Nat} (h1 : natCmp x y = -1) (h2 : natCmp y z = -1) :
    natCmp x z = -1 := by
  rw [natCmp] at h1 h2 ⊢
  by_cases ha : x < y <;> by_cases hb : y < x <;> simp [ha, hb] at h1 <;>
    by_cases hc : y < z <;> by_cases hd : z < y <;> simp [hc, hd] at h2 <;>
    by_cases he : x < z <;> simp [he] <;> omega

lemma semverCompare_eq_lex (v o : SemVer) :
    semverCompare v o = lexInt (natCmp v.major o.major)
      (lexInt (natCmp v.minor o.minor)
        (lexInt (natCmp v.patch o.patch) (preCmp v.pre o.pre))) := by
  rw [semverCompare, lexInt, lexInt, lexInt, preCmp]
  by_cases h1 : v.major = o.major
  · have e1 : natCmp v.major o.major = 0 := h1 ▸ natCmp_self _
    rw [if_neg (not_ne_iff.mpr h1), if_pos e1]
    by_cases h2 : v.minor = o.minor
    · have e2 : natCmp v.minor o.minor = 0 := h2 ▸ natCmp_self _
      rw [if_neg (not_ne_iff.mpr h2), if_pos e2]
      by_cases h3 : v.patch = o.patch
      · have e3 : natCmp v.patch o.patch = 0 := h3 ▸ natCmp_self _
        rw [if_neg (not_ne_iff.mpr h3), if_pos e3]
      · have e3 : natCmp v.patch o.patch ≠ 0 := fun hc => h3 (natCmp_eq_zero hc)
        rw [if_pos h3, if_neg e3]
    · have e2 : natCmp v.minor o.minor ≠ 0 := fun hc => h2 (natCmp_eq_zero hc)
      rw [if_pos h2, if_neg e2]
  · have e1 : natCmp v.major o.major ≠ 0 := fun hc => h1 (natCmp_eq_zero hc)
    rw [if_pos h1, if_neg e1]

lemma lexInt_neg {c d c' d' : Int} (hc : c = -c') (hd : d = -d') :
    lexInt c d = -(lexInt c' d') := by
  rw [lexInt, lexInt]
  by_cases e : c' = 0
  · rw [if_pos e, if_pos (by omega)]
    exact hd
  · rw [if_neg e, if_neg (by omega)]
    exact hc

lemma preCmp_neg (p q : List PRVersion) : preCmp p q = -(preCmp q p) := by
  rw [preCmp, preCmp]
  by_cases hp : p.isEmpty <;> by_cases hq : q.isEmpty <;> simp [hp, hq]
  exact preListCmp_neg p q

lemma semverCompare_neg (v o : SemVer) : semverCompare v o = -(semverCompare o v) := by
  rw [semverCompare_eq_lex, semverCompare_eq_lex]
  exact lexInt_neg (natCmp_neg _ _) (lexInt_neg (natCmp_neg _ _)
    (lexInt_neg (natCmp_neg _ _) (preCmp_neg _ _)))

lemma preCmp_trans {p q r : List PRVersion} (h1 : preCmp p q ≠ 1)
    (h2 : preCmp q r ≠ 1) : preCmp p r ≠ 1 := by
  rw [preCmp] at h1 h2 ⊢
  by_cases hp : p.isEmpty <;> by_cases hq : q.isEmpty <;> by_cases hr : r.isEmpty <;>
    simp [hp, hq, hr] at h1 h2 ⊢
  exact preListCmp_trans h1 h2

lemma lexInt_trans {cuv cvw cuw ruv rvw ruw : Int}
    (hr1 : cuv = -1 ∨ cuv = 0 ∨ cuv = 1)
    (hr2 : cvw = -1 ∨ cvw = 0 ∨ cvw = 1)
    (hct : cuv ≠ 1 → cvw ≠ 1 → cuw ≠ 1)
    (hs1 : cuv = 0 → cuw = cvw)
    (hs2 : cvw = 0 → cuw = cuv)
    (hst : cuv = -1 → cvw = -1 → cuw = -1)
    (hrt : ruv ≠ 1 → rvw ≠ 1 → ruw ≠ 1)
    (h1 : lexInt cuv ruv ≠ 1) (h2 : lexInt cvw rvw ≠ 1) :
    lexInt cuw ruw ≠ 1 := by
  rw [lexInt] at h1 h2 ⊢
  by_cases e1 : cuv = 0 <;> by_cases e2 : cvw = 0
  · have h0 : cuw = 0 := by rw [hs1 e1, e2]
    rw [if_pos h0]
    rw [if_pos e1] at h1
    rw [if_pos e2] at h2
    exact hrt h1 h2
  · have hc : cuw = cvw := hs1 e1
    rw [if_neg e2] at h2
    rw [if_neg (hc ▸ e2), hc]
    exact h2
  · have hc : cuw = cuv := hs2 e2
    rw [if_neg e1] at h1
    rw [if_neg (hc ▸ e1), hc]
    exact h1
  · rw [if_neg e1] at h1
    rw [if_neg e2] at h2
    have c1 : cuv = -1 := by rcases hr1 with h | h | h <;> omega
    have c2 : cvw = -1 := by rcases hr2 with h | h | h <;> omega
    have c3 : cuw = -1 := hst c1 c2
    rw [if_neg (by omega)]
    omega

lemma semverCompare_trans {u v w : SemVer} (h1 : semverCompare u v ≠ 1)
    (h2 : semverCompare v w ≠ 1) : semverCompare u w ≠ 1 := by
  rw [semverCompare_eq_lex] at h1 h2 ⊢
  refine lexInt_trans (natCmp_range _ _) (natCmp_range _ _)
    (fun a b => natCmp_trans a b)
    (fun e => by rw [natCmp_eq_zero e])
    (fun e => by rw [natCmp_eq_zero e])
    (fun a b => natCmp_strict a b)
    ?_ h1 h2
  intro m1 m2
  refine lexInt_trans (natCmp_range _ _) (natCmp_range _ _)
    (fun a b => natCmp_trans a b)
    (fun e => by rw [natCmp_eq_zero e])
    (fun e => by rw [natCmp_eq_zero e])
    (fun a b => natCmp_strict a b)
    ?_ m1 m2
  intro p1 p2
  refine lexInt_trans (natCmp_range _ _) (natCmp_range _ _)
    (fun a b => natCmp_trans a b)
    (fun e => by rw [natCmp_eq_zero e])
    (fun e => by rw [natCmp_eq_zero e])
    (fun a b => natCmp_strict a b)
    (fun a b => preCmp_trans a b)
    p1 p2

/-! ### C1/C10: the resolver (`Client.ResolveDependencies`)

The channel index and the local SDK API version are passed in directly
(`loadIndex` / `LoadLocalSdkInfo` are I/O). Go's maps keyed by package
name are modelled as insertion-ordered association lists, and the
unbounded `for len(queue) > 0` loop runs on explicit fuel that is proved
sufficient (claim C10). -/

/-- `strings.TrimSpace`. -/
def TrimSpace (s : String) : String := ⟨trimSpaceL s.data⟩

/-- The version key the resolver sorts by: `semver.ParseTolerant`, with a
parse failure leaving the zero `semver.Version`. -/
def entVer (v : String) : SemVer := (parseTolerantL v.data).getD ⟨0, 0, 0, [], []⟩

/-- The comparator `vi.GT(vj)` of the sort in `ResolveDependencies`. -/
def entGT (a b : IndexEntry) : Bool :=
  semverCompare (entVer a.version) (entVer b.version) == 1

/-- `a` may precede `b` in the stable descending sort. -/
def entLe (a b : IndexEntry) : Bool := !(entGT b a)

/-- Stable insertion of `a` before the first element it may precede. -/
def insertLe (le : IndexEntry → IndexEntry → Bool) (a : IndexEntry) :
    List IndexEntry → List IndexEntry
  | [] => [a]
  | b :: t => if le a b then a :: b :: t else b :: insertLe le a t

/-- Stable insertion sort; for the total preorder `entLe` this computes
the same list as Go's `sort.SliceStable` (the stable sort of a total
preorder is unique). -/
def sortStable (le : IndexEntry → IndexEntry → Bool) : List IndexEntry → List IndexEntry
  | [] => []
  | a :: t => insertLe le a (sortStable le t)

/-- `byName[n]`: the index entries of the target architecture carrying
name `n`, in index order, stably sorted by semver descending. -/
def byName (packages : List IndexEntry) (arch n : String) : List IndexEntry :=
  sortStable entLe ((packages.filter (fun e => arch == e.arch)).filter (fun e => e.name == n))

def cGet : List (String × List Constraint) → String → Option (List Constraint)
  | [], _ => none
  | e :: t, n => if e.1 = n then some e.2 else cGet t n

def cSet : List (String × List Constraint) → String → List Constraint →
    List (String × List Constraint)
  | [], n, v => [(n, v)]
  | e :: t, n, v => if e.1 = n then (n, v) :: t else e :: cSet t n v

def cKeys (cs : List (String × List Constraint)) : List String := cs.map (·.1)

def lookupEntry : List (String × IndexEntry) → String → Option IndexEntry
  | [], _ => none
  | e :: t, n => if e.1 = n then some e.2 else lookupEntry t n

inductive ResolveError where
  | parseDep (d : DepError)
  | notFound (name : String)
  | unsatisfiable (name : String) (cs : List Constraint) (api : String)
  | fuelOut
deriving DecidableEq, Repr

/-- The initial-request loop (client.go lines 1036-1053): trim, skip
empties, parse, merge the constraint into the map, enqueueing a name on
its first insertion. -/
def initLoop : List String → List (String × List Constraint) → List String →
    Except ResolveError (List (String × List Constraint) × List String)
  | [], cons, queue => .ok (cons, queue)
  | r :: rest, cons, queue =>
    let r' := TrimSpace r
    if r' = "" then initLoop rest cons queue
    else
      match ParseDep r' with
      | .error e => .error (.parseDep e)
      | .ok (depName, depC) =>
        match cGet cons depName with
        | some old => initLoop rest (cSet cons depName (old ++ [depC])) queue
        | none => initLoop rest (cSet cons depName [depC]) (queue ++ [depName])

/-- The dependency loop of one chosen entry (client.go lines 1096-1110):
parse each declared dependency, enqueue its name exactly when it is first
inserted into the constraints map, and append the constraint. -/
def depLoop : List String → List (String × List Constraint) → List String →
    Except ResolveError (List (String × List Constraint) × List String)
  | [], cons, queue => .ok (cons, queue)
  | dep :: rest, cons, queue =>
    match ParseDep dep with
    | .error e => .error (.parseDep e)
    | .ok (depName, depC) =>
      match cGet cons depName with
      | some old => depLoop rest (cSet cons depName (old ++ [depC])) queue
      | none => depLoop rest (cSet cons depName [depC]) (queue ++ [depName])

/-- The BFS loop of `ResolveDependencies` (client.go lines 1060-1110),
with explicit fuel. -/
def resolveLoop (bn : String → List IndexEntry) (api : String) :
    Nat → List String → List (String × List Constraint) →
    List (String × IndexEntry) → Except ResolveError (List (String × IndexEntry))
  | 0, _, _, _ => .error .fuelOut
  | fuel + 1, queue, cons, chosen =>
    match queue with
    | [] => .ok chosen
    | name :: rest =>
      match lookupEntry chosen name with
      | some _ => resolveLoop bn api fuel rest cons chosen
      | none =>
        if bn name = [] then .error (.notFound name)
        else
          let curC := (cGet cons name).getD []
          match (bn name).find? (fun e =>
              SatisfiesConstraints e.version curC && (e.ohosApi == api)) with
          | none => .error (.unsatisfiable name curC api)
          | some e =>
            match depLoop e.depends cons rest with
            | .error err => .error err
            | .ok (cons2, queue2) =>
              resolveLoop bn api fuel queue2 cons2 (chosen ++ [(name, e)])

/-- All dependency names any index entry can ever enqueue. -/
def resolveUniverse (packages : List IndexEntry) : List String :=
  (packages.flatMap (fun e => e.depends)).filterMap
    (fun d => match ParseDep d with | .ok p => some p.1 | .error _ => none)

/-- `Client.ResolveDependencies` (client.go lines 1003-1113), over the
loaded index `packages` and local SDK API version `api`. The fuel is an
upper bound on loop iterations, proved never to run out. -/
def ResolveDependencies (packages : List IndexEntry) (api : String)
    (requested : List String) (arch : String) :
    Except ResolveError (List (String × IndexEntry)) :=
  match initLoop requested [] [] with
  | .error e => .error e
  | .ok (cons, queue) =>
    resolveLoop (byName packages arch) api
      (requested.length + 2 * (resolveUniverse packages).length + 1) queue cons []

/-- Does the resolver's result report fuel exhaustion (a model artifact:
the Go loop has no fuel)? -/
def isFuelOut : Except ResolveError (List (String × IndexEntry)) → Bool
  | .error .fuelOut => true
  | _ => false

lemma cKeys_cons (e : String × List Constraint) (t : List (String × List Constraint)) :
    cKeys (e :: t) = e.1 :: cKeys t := rfl

lemma cGet_none_iff : ∀ (cs : List (String × List Constraint)) (n : String),
    cGet cs n = none ↔ n ∉ cKeys cs := by
  intro cs n
  induction cs with
  | nil => simp [cGet, cKeys]
  | cons e t ih =>
    rw [cGet, cKeys_cons]
    by_cases he : e.1 = n
    · simp [he]
    · rw [if_neg he, ih]
      have hne : ¬ n = e.1 := fun h => he h.symm
      simp [hne]

lemma cKeys_set_mem {cs : List (String × List Constraint)} {n : String}
    (h : n ∈ cKeys cs) (v : List Constraint) : cKeys (cSet cs n v) = cKeys cs := by
  induction cs with
  | nil => simp [cKeys] at h
  | cons e t ih =>
    rw [cSet]
    by_cases he : e.1 = n
    · rw [if_pos he, cKeys_cons, cKeys_cons, he]
    · have hmem : n ∈ cKeys t := by
        rw [cKeys_cons] at h
        rcases List.mem_cons.mp h with h1 | h1
        · exact absurd h1.symm he
        · exact h1
      rw [if_neg he, cKeys_cons, cKeys_cons, ih hmem]

lemma cKeys_set_notmem {cs : List (String × List Constraint)} {n : String}
    (h : n ∉ cKeys cs) (v : List Constraint) :
    cKeys (cSet cs n v) = cKeys cs ++ [n] := by
  induction cs with
  | nil => rfl
  | cons e t ih =>
    rw [cKeys_cons] at h
    simp only [List.mem_cons, not_or] at h
    rw [cSet, if_neg (fun he => h.1 he.symm), cKeys_cons, ih h.2, cKeys_cons]
    rfl

lemma depLoop_error_shape : ∀ (deps : List String)
    (cons : List (String × List Constraint)) (queue : List String) (err : ResolveError),
    depLoop deps cons queue = .error err → ∃ d, err = .parseDep d := by
  intro deps
  induction deps with
  | nil =>
    intro cons queue err h
    rw [depLoop] at h
    cases h
  | cons dep rest ih =>
    intro cons queue err h
    rw [depLoop] at h
    rcases hp : ParseDep dep with e | ⟨depName, depC⟩ <;> simp only [hp] at h
    · cases h
      exact ⟨e, rfl⟩
    · rcases hg : cGet cons depName with _ | old <;> simp only [hg] at h
      · exact ih _ _ _ h
      · exact ih _ _ _ h

lemma initLoop_error_shape : ∀ (rs : List String)
    (cons : List (String × List Constraint)) (queue : List String) (err : ResolveError),
    initLoop rs cons queue = .error err → ∃ d, err = .parseDep d := by
  intro rs
  induction rs with
  | nil =>
    intro cons queue err h
    rw [initLoop] at h
    cases h
  | cons r rest ih =>
    intro cons queue err h
    rw [initLoop] at h
    by_cases he : TrimSpace r = ""
    · rw [if_pos he] at h
      exact ih _ _ _ h
    · rw [if_neg he] at h
      rcases hp : ParseDep (TrimSpace r) with e | ⟨depName, depC⟩ <;>
        simp only [hp] at h
      · cases h
        exact ⟨e, rfl⟩
      · rcases hg : cGet cons depName with _ | old <;> simp only [hg] at h
        · exact ih _ _ _ h
        · exact ih _ _ _ h

lemma depLoop_run : ∀ (deps : List String)
    (cons : List (String × List Constraint)) (queue : List String)
    (cons2 : List (String × List Constraint)) (queue2 : List String),
    depLoop deps cons queue = .ok (cons2, queue2) →
    ∃ new, queue2 = queue ++ new ∧ cKeys cons2 = cKeys cons ++ new ∧ new.Nodup ∧
      (∀ n ∈ new, n ∉ cKeys cons) ∧
      (∀ n ∈ new, ∃ d ∈ deps, ∃ c, ParseDep d = .ok (n, c)) := by
  intro deps
  induction deps with
  | nil =>
    intro cons queue cons2 queue2 h
    rw [depLoop] at h
    cases h
    exact ⟨[], by simp, by simp, List.nodup_nil, by simp, by simp⟩
  | cons dep rest ih =>
    intro cons queue cons2 queue2 h
    rw [depLoop] at h
    rcases hp : ParseDep dep with e | ⟨depName, depC⟩ <;> simp only [hp] at h
    · cases h
    rcases hg : cGet cons depName with _ | old <;> simp only [hg] at h
    · -- first insertion: enqueued
      have hnm : depName ∉ cKeys cons := (cGet_none_iff cons depName).mp hg
      obtain ⟨new, hq, hk, hnd, hfresh, hsrc⟩ := ih _ _ _ _ h
      rw [cKeys_set_notmem hnm] at hk hfresh
      refine ⟨depName :: new, by simpa using hq, by simpa using hk, ?_, ?_, ?_⟩
      · rw [List.nodup_cons]
        exact ⟨fun hm => (hfresh depName hm) (by simp), hnd⟩
      · intro n hn
        rcases List.mem_cons.mp hn with rfl | hn'
        · exact hnm
        · intro hmem
          exact hfresh n hn' (by simp [hmem])
      · intro n hn
        rcases List.mem_cons.mp hn with rfl | hn'
        · exact ⟨dep, by simp, depC, hp⟩
        · obtain ⟨d, hd, c, hc⟩ := hsrc n hn'
          exact ⟨d, by simp [hd], c, hc⟩
    · -- merge into existing name: not enqueued
      have hm : depName ∈ cKeys cons := by
        by_contra hno
        rw [← cGet_none_iff cons depName] at hno
        rw [hno] at hg
        cases hg
      obtain ⟨new, hq, hk, hnd, hfresh, hsrc⟩ := ih _ _ _ _ h
      rw [cKeys_set_mem hm] at hk hfresh
      refine ⟨new, hq, hk, hnd, hfresh, ?_⟩
      intro n hn
      obtain ⟨d, hd, c, hc⟩ := hsrc n hn
      exact ⟨d, by simp [hd], c, hc⟩

lemma initLoop_run : ∀ (rs : List String)
    (cons : List (String × List Constraint)) (queue : List String)
    (cons2 : List (String × List Constraint)) (queue2 : List String),
    initLoop rs cons queue = .ok (cons2, queue2) →
    ∃ new, queue2 = queue ++ new ∧ cKeys cons2 = cKeys cons ++ new ∧ new.Nodup ∧
      (∀ n ∈ new, n ∉ cKeys cons) ∧ new.length ≤ rs.length := by
  intro rs
  induction rs with
  | nil =>
    intro cons queue cons2 queue2 h
    rw [initLoop] at h
    cases h
    exact ⟨[], by simp, by simp, List.nodup_nil, by simp, by simp⟩
  | cons r rest ih =>
    intro cons queue cons2 queue2 h
    rw [initLoop] at h
    by_cases he : TrimSpace r = ""
    · rw [if_pos he] at h
      obtain ⟨new, hq, hk, hnd, hfresh, hlen⟩ := ih _ _ _ _ h
      exact ⟨new, hq, hk, hnd, hfresh, by simpa using Nat.le_succ_of_le hlen⟩
    rw [if_neg he] at h
    rcases hp : ParseDep (TrimSpace r) with e | ⟨depName, depC⟩ <;>
      simp only [hp] at h
    · cases h
    rcases hg : cGet cons depName with _ | old <;> simp only [hg] at h
    · have hnm : depName ∉ cKeys cons := (cGet_none_iff cons depName).mp hg
      obtain ⟨new, hq, hk, hnd, hfresh, hlen⟩ := ih _ _ _ _ h
      rw [cKeys_set_notmem hnm] at hk hfresh
      refine ⟨depName :: new, by simpa using hq, by simpa using hk, ?_, ?_, ?_⟩
      · rw [List.nodup_cons]
        exact ⟨fun hm => (hfresh depName hm) (by simp), hnd⟩
      · intro n hn
        rcases List.mem_cons.mp hn with rfl | hn'
        · exact hnm
        · intro hmem
          exact hfresh n hn' (by simp [hmem])
      · simpa using Nat.succ_le_succ hlen
    · have hm : depName ∈ cKeys cons := by
        by_contra hno
        rw [← cGet_none_iff cons depName] at hno
        rw [hno] at hg
        cases hg
      obtain ⟨new, hq, hk, hnd, hfresh, hlen⟩ := ih _ _ _ _ h
      rw [cKeys_set_mem hm] at hk hfresh
      exact ⟨new, hq, hk, hnd, hfresh, by simpa using Nat.le_succ_of_le hlen⟩

lemma insertLe_perm (le : IndexEntry → IndexEntry → Bool) (a : IndexEntry) :
    ∀ l, (insertLe le a l).Perm (a :: l)
  | [] => by rw [insertLe]
  | b :: t => by
    rw [insertLe]
    by_cases hab : le a b = true
    · rw [if_pos hab]
    · rw [if_neg hab]
      exact List.Perm.trans ((insertLe_perm le a t).cons b) (List.Perm.swap a b t)

lemma sortStable_perm (le : IndexEntry → IndexEntry → Bool) :
    ∀ l, (sortStable le l).Perm l
  | [] => by rw [sortStable]
  | a :: t => by
    rw [sortStable]
    exact List.Perm.trans (insertLe_perm le a (sortStable le t))
      ((sortStable_perm le t).cons a)

lemma mem_insertLe {le : IndexEntry → IndexEntry → Bool} {a y : IndexEntry}
    {l : List IndexEntry} (h : y ∈ insertLe le a l) : y = a ∨ y ∈ l := by
  have := (insertLe_perm le a l).mem_iff.mp h
  simpa using this

lemma insertLe_pairwise (le : IndexEntry → IndexEntry → Bool)
    (htrans : ∀ a b c, le a b = true → le b c = true → le a c = true)
    (htotal : ∀ a b, (le a b || le b a) = true) (a : IndexEntry) :
    ∀ (l : List IndexEntry), l.Pairwise (fun x y => le x y = true) →
    (insertLe le a l).Pairwise (fun x y => le x y = true) := by
  intro l
  induction l with
  | nil =>
    intro _
    rw [insertLe]
    simp
  | cons b t ih =>
    intro hl
    obtain ⟨hbt, htp⟩ := List.pairwise_cons.mp hl
    rw [insertLe]
    by_cases hab : le a b = true
    · rw [if_pos hab]
      refine List.pairwise_cons.mpr ⟨?_, hl⟩
      intro y hy
      rcases List.mem_cons.mp hy with rfl | hy'
      · exact hab
      · exact htrans a b y hab (hbt y hy')
    · rw [if_neg hab]
      have hba : le b a = true := by
        rcases (by simpa using htotal a b : le a b = true ∨ le b a = true) with h | h
        · exact absurd h hab
        · exact h
      refine List.pairwise_cons.mpr ⟨?_, ih htp⟩
      intro y hy
      rcases mem_insertLe hy with rfl | hy'
      · exact hba
      · exact hbt y hy'

lemma sortStable_pairwise (le : IndexEntry → IndexEntry → Bool)
    (htrans : ∀ a b c, le a b = true → le b c = true → le a c = true)
    (htotal : ∀ a b, (le a b || le b a) = true) :
    ∀ (l : List IndexEntry), (sortStable le l).Pairwise (fun x y => le x y = true)
  | [] => by rw [sortStable]; simp
  | a :: t => by
    rw [sortStable]
    exact insertLe_pairwise le htrans htotal a (sortStable le t)
      (sortStable_pairwise le htrans htotal t)

lemma byName_subset {packages : List IndexEntry} {arch n : String} {e : IndexEntry}
    (h : e ∈ byName packages arch n) : e ∈ packages := by
  rw [byName] at h
  have h1 := (sortStable_perm entLe _).mem_iff.mp h
  exact (List.mem_filter.mp (List.mem_filter.mp h1).1).1

lemma new_subset_universe {packages : List IndexEntry} {e : IndexEntry}
    (he : e ∈ packages) {n : String}
    (hn : ∃ d ∈ e.depends, ∃ c, ParseDep d = .ok (n, c)) :
    n ∈ resolveUniverse packages := by
  obtain ⟨d, hd, c, hc⟩ := hn
  rw [resolveUniverse]
  refine List.mem_filterMap.mpr ⟨d, ?_, ?_⟩
  · exact List.mem_flatMap.mpr ⟨e, he, hd⟩
  · rw [hc]

lemma resolveLoop_no_fuelOut (packages : List IndexEntry) (arch api : String) :
    ∀ (fuel : Nat) (queue : List String) (cons : List (String × List Constraint))
      (chosen : List (String × IndexEntry)),
      queue.length +
        2 * ((resolveUniverse packages).toFinset \ (cKeys cons).toFinset).card < fuel →
      resolveLoop (byName packages arch) api fuel queue cons chosen ≠ .error .fuelOut := by
  intro fuel
  induction fuel with
  | zero =>
    intro queue cons chosen hm
    omega
  | succ fuel ih =>
    intro queue cons chosen hm
    rcases queue with _ | ⟨name, rest⟩
    · rw [resolveLoop]
      intro hcon
      cases hcon
    rw [resolveLoop]
    rcases hl : lookupEntry chosen name with _ | e0
    · simp only [hl]
      by_cases hbn : byName packages arch name = []
      · rw [if_pos hbn]
        intro hcon
        injection hcon with hcon2
        cases hcon2
      rw [if_neg hbn]
      rcases hf : (byName packages arch name).find? (fun e =>
          SatisfiesConstraints e.version ((cGet cons name).getD []) && (e.ohosApi == api))
        with _ | e
      · simp only [hf]
        intro hcon
        injection hcon with hcon2
        cases hcon2
      simp only [hf]
      rcases hdl : depLoop e.depends cons rest with err | ⟨cons2, queue2⟩
      · simp only [hdl]
        obtain ⟨d, rfl⟩ := depLoop_error_shape _ _ _ _ hdl
        intro hcon
        injection hcon with hcon2
        cases hcon2
      simp only [hdl]
      refine ih queue2 cons2 (chosen ++ [(name, e)]) ?_
      obtain ⟨new, hq, hk, hnd, hfresh, hsrc⟩ := depLoop_run _ _ _ _ _ hdl
      have hemem : e ∈ packages :=
        byName_subset (List.mem_of_find?_eq_some hf)
      have hsubU : new.toFinset ⊆
          (resolveUniverse packages).toFinset \ (cKeys cons).toFinset := by
        intro x hx
        rw [List.mem_toFinset] at hx
        rw [Finset.mem_sdiff, List.mem_toFinset, List.mem_toFinset]
        exact ⟨new_subset_universe hemem (hsrc x hx), hfresh x hx⟩
      have hksub : (cKeys cons2).toFinset =
          (cKeys cons).toFinset ∪ new.toFinset := by
        rw [hk]
        ext x
        simp [List.mem_toFinset]
      have hsdiff : (resolveUniverse packages).toFinset \ (cKeys cons2).toFinset =
          ((resolveUniverse packages).toFinset \ (cKeys cons).toFinset) \
            new.toFinset := by
        rw [hksub]
        ext x
        simp [Finset.mem_sdiff]
        tauto
      have hcard : (((resolveUniverse packages).toFinset \ (cKeys cons).toFinset) \
            new.toFinset).card =
          ((resolveUniverse packages).toFinset \ (cKeys cons).toFinset).card -
            new.length := by
        rw [Finset.card_sdiff hsubU, List.toFinset_card_of_nodup hnd]
      have hle : new.length ≤
          ((resolveUniverse packages).toFinset \ (cKeys cons).toFinset).card := by
        calc new.length = new.toFinset.card := (List.toFinset_card_of_nodup hnd).symm
        _ ≤ _ := Finset.card_le_card hsubU
      rw [hsdiff, hcard, hq, List.length_append]
      simp only [List.length_cons] at hm
      omega
    · simp only [hl]
      refine ih rest cons chosen ?_
      simp only [List.length_cons] at hm
      omega

/-- **C10.** The resolver terminates on every finite index and request
list: each distinct package name is enqueued only at its first insertion
into the constraints map, so the explicit fuel of the model (a bound on
the Go loop's iterations) is never exhausted, even on cyclic dependency
graphs. -/
theorem resolveDependencies_terminates (packages : List IndexEntry)
    (api : String) (requested : List String) (arch : String) :
    isFuelOut (ResolveDependencies packages api requested arch) = false := by
  rw [ResolveDependencies]
  rcases hi : initLoop requested [] [] with err | ⟨cons, queue⟩
  · simp only [hi]
    obtain ⟨d, rfl⟩ := initLoop_error_shape _ _ _ _ hi
    rfl
  simp only [hi]
  obtain ⟨new, hq, hk, hnd, _, hlen⟩ := initLoop_run _ _ _ _ _ hi
  have hqlen : queue.length ≤ requested.length := by
    rw [hq]
    simpa using hlen
  have hcard : ((resolveUniverse packages).toFinset \ (cKeys cons).toFinset).card ≤
      (resolveUniverse packages).length :=
    le_trans (Finset.card_le_card (Finset.sdiff_subset))
      (List.toFinset_card_le _)
  have hrun := resolveLoop_no_fuelOut packages arch api
    (requested.length + 2 * (resolveUniverse packages).length + 1) queue cons []
    (by omega)
  rcases hr : resolveLoop (byName packages arch) api
      (requested.length + 2 * (resolveUniverse packages).length + 1) queue cons []
    with err | res
  · rcases err with d | nm | u1 | _
    · rfl
    · rfl
    · rfl
    · exact absurd hr hrun
  · rfl

lemma entLe_trans : ∀ (a b c : IndexEntry), entLe a b = true → entLe b c = true →
    entLe a c = true := by
  intro a b c h1 h2
  simp only [entLe, entGT, Bool.not_eq_true', beq_eq_false_iff_ne] at h1 h2 ⊢
  exact semverCompare_trans h2 h1

lemma entLe_total : ∀ (a b : IndexEntry), (entLe a b || entLe b a) = true := by
  intro a b
  simp only [entLe, entGT, Bool.or_eq_true, Bool.not_eq_true', beq_eq_false_iff_ne]
  by_contra hcon
  push_neg at hcon
  obtain ⟨h1, h2⟩ := hcon
  have hneg := semverCompare_neg (entVer b.version) (entVer a.version)
  omega

lemma byName_sorted (packages : List IndexEntry) (arch n : String) :
    (byName packages arch n).Pairwise
      (fun a b => semverCompare (entVer b.version) (entVer a.version) ≠ 1) := by
  have h := sortStable_pairwise entLe entLe_trans entLe_total
    ((packages.filter (fun e => arch == e.arch)).filter (fun e => e.name == n))
  rw [byName]
  refine List.Pairwise.imp ?_ h
  intro a b hab
  simpa only [entLe, entGT, Bool.not_eq_true', beq_eq_false_iff_ne] using hab

lemma find?_append_first {α : Type} (p : α → Bool) (l2 : List α) (e : α)
    (he : p e = true) :
    ∀ (l1 : List α), (∀ x ∈ l1, p x = false) → (l1 ++ e :: l2).find? p = some e := by
  intro l1
  induction l1 with
  | nil =>
    intro _
    rw [List.nil_append]
    exact List.find?_cons_of_pos l2 he
  | cons x t ih =>
    intro h1
    rw [List.cons_append,
      List.find?_cons_of_neg _ (by simp [h1 x (by simp)])]
    exact ih (fun y hy => h1 y (by simp [hy]))

lemma resolveLoop_sound (packages : List IndexEntry) (arch api : String) :
    ∀ (fuel : Nat) (queue : List String) (cons : List (String × List Constraint))
      (chosen res : List (String × IndexEntry)),
      resolveLoop (byName packages arch) api fuel queue cons chosen = .ok res →
      ∀ p ∈ res, p ∈ chosen ∨
        (p.2 ∈ byName packages arch p.1 ∧ p.2.ohosApi = api) := by
  intro fuel
  induction fuel with
  | zero =>
    intro queue cons chosen res h
    rw [resolveLoop] at h
    cases h
  | succ fuel ih =>
    intro queue cons chosen res h
    rcases queue with _ | ⟨name, rest⟩ <;> rw [resolveLoop] at h
    · cases h
      intro p hp
      exact Or.inl hp
    rcases hl : lookupEntry chosen name with _ | e0 <;> simp only [hl] at h
    · by_cases hbn : byName packages arch name = []
      · rw [if_pos hbn] at h
        cases h
      rw [if_neg hbn] at h
      rcases hf : (byName packages arch name).find? (fun e =>
          SatisfiesConstraints e.version ((cGet cons name).getD []) && (e.ohosApi == api))
        with _ | e <;> simp only [hf] at h
      · cases h
      rcases hdl : depLoop e.depends cons rest with err | ⟨cons2, queue2⟩ <;>
        simp only [hdl] at h
      · cases h
      intro p hp
      rcases ih _ _ _ _ h p hp with hin | hprop
      · rcases List.mem_append.mp hin with hin1 | hin1
        · exact Or.inl hin1
        · right
          rcases List.mem_singleton.mp hin1 with rfl
          refine ⟨List.mem_of_find?_eq_some hf, ?_⟩
          have := List.find?_some hf
          simp only [Bool.and_eq_true, beq_iff_eq] at this
          exact this.2
      · exact Or.inr hprop
    · intro p hp
      exact ih _ _ _ _ h p hp

instance exceptDecEq {ε α : Type} [DecidableEq ε] [DecidableEq α] :
    DecidableEq (Except ε α) := fun x y =>
  match x, y with
  | .ok a, .ok b =>
    if h : a = b then .isTrue (congrArg Except.ok h)
    else .isFalse (fun hc => h (Except.ok.inj hc))
  | .error a, .error b =>
    if h : a = b then .isTrue (congrArg Except.error h)
    else .isFalse (fun hc => h (Except.error.inj hc))
  | .ok _, .error _ => .isFalse (fun hc => Except.noConfusion hc)
  | .error _, .ok _ => .isFalse (fun hc => Except.noConfusion hc)

/-- The counterexample to C1's error clause: a requested package with no
candidates at all (here: an empty index) fails with an error naming only
the package — not the claimed diagnostic carrying the accumulated
constraint set and the required API. -/
theorem resolveDependencies_notFound_counterexample :
    ResolveDependencies [] "10" ["foo"] "arm" = .error (.notFound "foo") := by
  decide

/-- **C1 (amended).** The resolver's candidate lists `byName[n]` are the
index entries of the target architecture with that name, sorted by
tolerant semver descending; a dequeued name already chosen is skipped; a
dequeued name with NO candidates fails with an error naming only the
package; with candidates, the first entry satisfying all accumulated
constraints whose `ohos_api` equals the local SDK API is selected; if
none of the (non-empty) candidates qualifies, the error names the
package, its accumulated constraints, and the required API; and every
entry of a successful resolution is an arch-matching candidate of its
name with the required API. -/
theorem resolveDependencies_spec (packages : List IndexEntry) (api arch : String) :
    (∀ n, (byName packages arch n).Perm
        ((packages.filter (fun e => arch == e.arch)).filter (fun e => e.name == n)) ∧
      (byName packages arch n).Pairwise
        (fun a b => semverCompare (entVer b.version) (entVer a.version) ≠ 1)) ∧
    (∀ (fuel : Nat) (name : String) (rest : List String)
        (cons : List (String × List Constraint)) (chosen : List (String × IndexEntry))
        (e0 : IndexEntry),
      lookupEntry chosen name = some e0 →
      resolveLoop (byName packages arch) api (fuel + 1) (name :: rest) cons chosen =
        resolveLoop (byName packages arch) api fuel rest cons chosen) ∧
    (∀ (fuel : Nat) (name : String) (rest : List String)
        (cons : List (String × List Constraint)) (chosen : List (String × IndexEntry)),
      lookupEntry chosen name = none →
      byName packages arch name = [] →
      resolveLoop (byName packages arch) api (fuel + 1) (name :: rest) cons chosen =
        .error (.notFound name)) ∧
    (∀ (fuel : Nat) (name : String) (rest : List String)
        (cons : List (String × List Constraint)) (chosen : List (String × IndexEntry))
        (l1 : List IndexEntry) (e : IndexEntry) (l2 : List IndexEntry),
      lookupEntry chosen name = none →
      byName packages arch name = l1 ++ e :: l2 →
      SatisfiesConstraints e.version ((cGet cons name).getD []) = true →
      e.ohosApi = api →
      (∀ x ∈ l1, ¬(SatisfiesConstraints x.version ((cGet cons name).getD []) = true ∧
        x.ohosApi = api)) →
      resolveLoop (byName packages arch) api (fuel + 1) (name :: rest) cons chosen =
        (match depLoop e.depends cons rest with
         | .error err => .error err
         | .ok (cons2, queue2) =>
            resolveLoop (byName packages arch) api fuel queue2 cons2
              (chosen ++ [(name, e)]))) ∧
    (∀ (fuel : Nat) (name : String) (rest : List String)
        (cons : List (String × List Constraint)) (chosen : List (String × IndexEntry)),
      lookupEntry chosen name = none →
      byName packages arch name ≠ [] →
      (∀ x ∈ byName packages arch name,
        ¬(SatisfiesConstraints x.version ((cGet cons name).getD []) = true ∧
          x.ohosApi = api)) →
      resolveLoop (byName packages arch) api (fuel + 1) (name :: rest) cons chosen =
        .error (.unsatisfiable name ((cGet cons name).getD []) api)) ∧
    (∀ (requested : List String) (res : List (String × IndexEntry)),
      ResolveDependencies packages api requested arch = .ok res →
      ∀ p ∈ res, p.2 ∈ byName packages arch p.1 ∧ p.2.ohosApi = api) := by
  refine ⟨?_, ?_, ?_, ?_, ?_, ?_⟩
  · intro n
    exact ⟨sortStable_perm entLe _, byName_sorted packages arch n⟩
  · intro fuel name rest cons chosen e0 hl
    rw [resolveLoop]
    simp only [hl]
  · intro fuel name rest cons chosen hl hbn
    rw [resolveLoop]
    simp only [hl]
    rw [if_pos hbn]
  · intro fuel name rest cons chosen l1 e l2 hl hsplit hsat hapi hl1
    rw [resolveLoop]
    simp only [hl]
    rw [if_neg (by rw [hsplit]; simp)]
    have hfind : (byName packages arch name).find? (fun x =>
        SatisfiesConstraints x.version ((cGet cons name).getD []) &&
          (x.ohosApi == api)) = some e := by
      rw [hsplit]
      refine find?_append_first _ l2 e (by simp [hsat, hapi]) l1 ?_
      intro x hx
      have hnx := hl1 x hx
      by_cases hs : SatisfiesConstraints x.version ((cGet cons name).getD []) = true
      · have hna : ¬ x.ohosApi = api := fun ha => hnx ⟨hs, ha⟩
        simp [hs, hna]
      · simp only [Bool.not_eq_true] at hs
        simp [hs]
    simp only [hfind]
  · intro fuel name rest cons chosen hl hbn hall
    rw [resolveLoop]
    simp only [hl]
    rw [if_neg hbn]
    have hfind : (byName packages arch name).find? (fun x =>
        SatisfiesConstraints x.version ((cGet cons name).getD []) &&
          (x.ohosApi == api)) = none := by
      rw [List.find?_eq_none]
      intro x hx
      have hnx := hall x hx
      by_cases hs : SatisfiesConstraints x.version ((cGet cons name).getD []) = true
      · have hna : ¬ x.ohosApi = api := fun ha => hnx ⟨hs, ha⟩
        simp [hs, hna]
      · simp only [Bool.not_eq_true] at hs
        simp [hs]
    simp only [hfind]
  · intro requested res hok p hp
    rw [ResolveDependencies] at hok
    rcases hi : initLoop requested [] [] with err | ⟨cons, queue⟩ <;>
      simp only [hi] at hok
    · cases hok
    rcases resolveLoop_sound packages arch api _ _ _ _ _ hok p hp with hin | hprop
    · cases hin
    · exact hprop

def wE1 : IndexEntry := ⟨"A", "1.0.0", "arm", "10", "u", "s", 0, "m", ["B >= 1.0.0"]⟩

def wE2 : IndexEntry := ⟨"A", "2.0.0", "arm", "11", "u", "s", 0, "m", []⟩

def wE3 : IndexEntry := ⟨"B", "1.2.0", "arm", "10", "u", "s", 0, "m", []⟩

def wIdx : List IndexEntry := [wE1, wE2, wE3]

theorem resolveDependencies_spec_witness :
    (resolveLoop (byName wIdx "arm") "10" 1 ["C"] [] [] = .error (.notFound "C")) ∧
    (resolveLoop (byName wIdx "arm") "12" 1 ["A"] [] [] =
      .error (.unsatisfiable "A" ((cGet [] "A").getD []) "12")) ∧
    (∀ p ∈ [("A", wE1), ("B", wE3)],
      p.2 ∈ byName wIdx "arm" p.1 ∧ p.2.ohosApi = "10") :=
  ⟨(resolveDependencies_spec wIdx "10" "arm").2.2.1 0 "C" [] [] [] rfl (by decide),
   (resolveDependencies_spec wIdx "12" "arm").2.2.2.2.1 0 "A" [] [] [] rfl
     (by decide) (by decide),
   (resolveDependencies_spec wIdx "10" "arm").2.2.2.2.2 ["A"] [("A", wE1), ("B", wE3)]
     (by decide)⟩

end OhPackager
